import Mathlib

/-!
Verification of the pingora-waf decision core against its specification.

The Rust sources are shallowly embedded: pure functions become Lean
functions, the shared mutable CC-limiter table becomes explicit state
passing over a functional map, `std::time::Instant` becomes a `Nat`
count of nanoseconds, and byte strings become `List Nat`.
-/

namespace PingoraWaf

/-! ### ASCII case helpers (Rust `to_ascii_lowercase` and friends) -/

/-- Lowercase a single byte, as Rust `u8::to_ascii_lowercase`. -/
def asciiLowerByte (b : Nat) : Nat :=
  if 65 ≤ b ∧ b ≤ 90 then b + 32 else b

/-- Lowercase a byte string, as Rust `[u8]::to_ascii_lowercase`. -/
def lowB (l : List Nat) : List Nat := l.map asciiLowerByte

/-- Lowercase a character when it is an ASCII capital, as Rust
`char::to_ascii_lowercase` (which only affects `A`-`Z`). -/
def asciiLowerChar (c : Char) : Char :=
  if 65 ≤ c.toNat ∧ c.toNat ≤ 90 then Char.ofNat (c.toNat + 32) else c

/-- Uppercase a character when it is an ASCII small letter, as Rust
`char::to_ascii_uppercase`. -/
def asciiUpperChar (c : Char) : Char :=
  if 97 ≤ c.toNat ∧ c.toNat ≤ 122 then Char.ofNat (c.toNat - 32) else c

/-- Lowercase the ASCII letters of a string, as Rust `str::to_ascii_lowercase`. -/
def lowerStr (s : String) : String := ⟨s.data.map asciiLowerChar⟩

/-- Uppercase the ASCII letters of a string, as Rust `str::to_ascii_uppercase`. -/
def upperStr (s : String) : String := ⟨s.data.map asciiUpperChar⟩

/-- Byte-level ASCII case-insensitive string equality, as Rust
`str::eq_ignore_ascii_case`. -/
def eqIgnoreAsciiCase (a b : String) : Bool := lowerStr a == lowerStr b

/-- Bytes of a string, identifying a character with its code point.
This coincides with the UTF-8 bytes on the ASCII fragment, which is the
fragment the WAF patterns and paths exercise. -/
def strBytes (s : String) : List Nat := s.data.map Char.toNat

/-! ### CC limiter (src/policy/cc.rs)

Time is a `Nat` number of nanoseconds; `Duration::from_secs` multiplies
by `10^9`.  `Instant::duration_since` saturates at zero exactly like
`Nat` subtraction.  The `DashMap<String, Entry>` table becomes the
functional map `CcTable`; a sequence of `check` calls threads it
explicitly. -/

/-- Nanoseconds in a second. -/
def nanosPerSec : Nat := 1000000000

/-- Duration of `s` seconds in nanoseconds (Rust `Duration::from_secs s`). -/
def durOfSecs (s : Nat) : Nat := s * nanosPerSec

/-- CC parameters, mirroring `CcParams` in cc.rs. -/
structure CcParams where
  window_secs : Nat
  max_requests : Nat
  block_secs : Nat
deriving Repr, DecidableEq

/-- A limiter hit, mirroring `CcHit` in cc.rs. -/
structure CcHit where
  reason : String
deriving Repr, DecidableEq

/-- Per-key limiter state, mirroring `Entry` in cc.rs. -/
structure CcEntry where
  window_start : Nat
  count : Nat
  blocked_until : Option Nat
  last_seen : Nat
deriving Repr, DecidableEq

/-- The limiter table `DashMap<String, Entry>` as a functional map. -/
def CcTable : Type := String → Option CcEntry

/-- Table update (the effect of `DashMap::insert`). -/
def tableInsert (t : CcTable) (k : String) (e : CcEntry) : CcTable :=
  fun x => if x = k then some e else t x

/-- The key built by `CcLimiter::check`: `format!("rule={}|{}", rule_id, key_body)`. -/
def ccKey (rule_id key_body : String) : String :=
  "rule=" ++ rule_id ++ "|" ++ key_body

/-- Tail of `CcLimiter::check` after the blocked-state branch: window
rolling, counting, and the over-limit test.  `window`, `block_for` and
`max_req` are the already-clamped values; `window_secs_raw` is the raw
`p.window_secs` used in the hit reason. -/
def ccFinish (t : CcTable) (k rule_id : String)
    (window_secs_raw window block_for max_req now : Nat) (e : CcEntry) :
    CcTable × Option CcHit :=
  let e1 := if window ≤ now - e.window_start
    then { e with window_start := now, count := 0 } else e
  let e2 := { e1 with count := e1.count + 1 }
  if max_req < e2.count then
    let e3 := { e2 with blocked_until := some (now + block_for) }
    (tableInsert t k e3,
      some { reason := "cc exceeded " ++ toString max_req ++ " req/" ++
        toString window_secs_raw ++ "s on " ++ rule_id })
  else
    (tableInsert t k e2, none)

/-- The state machine of `CcLimiter::check`, with the call instant `now`
made explicit.  Returns the updated table and the optional hit. -/
def ccCheck (t : CcTable) (rule_id key_body : String) (p : CcParams) (now : Nat) :
    CcTable × Option CcHit :=
  let window := durOfSecs (max p.window_secs 1)
  let block_for := durOfSecs (max p.block_secs 1)
  let max_req := max p.max_requests 1
  let k := ccKey rule_id key_body
  let e0 := (t k).getD
    { window_start := now, count := 0, blocked_until := none, last_seen := now }
  let e1 := { e0 with last_seen := now }
  match e1.blocked_until with
  | some u =>
    if now < u then
      (tableInsert t k e1, some { reason := "cc blocked: " ++ rule_id })
    else
      ccFinish t k rule_id p.window_secs window block_for max_req now
        { e1 with blocked_until := none, window_start := now, count := 0 }
  | none =>
    ccFinish t k rule_id p.window_secs window block_for max_req now e1

/-- Table after `n` successive `check` calls for the same rule and key,
the `i`-th call happening at instant `ts i`. -/
def ccTblAfter (t : CcTable) (rule_id key_body : String) (p : CcParams)
    (ts : Nat → Nat) : Nat → CcTable
  | 0 => t
  | n + 1 => (ccCheck (ccTblAfter t rule_id key_body p ts n) rule_id key_body p (ts n)).1

/-- Result of the `n`-th (0-based) `check` call in that sequence. -/
def ccResult (t : CcTable) (rule_id key_body : String) (p : CcParams)
    (ts : Nat → Nat) (n : Nat) : Option CcHit :=
  (ccCheck (ccTblAfter t rule_id key_body p ts n) rule_id key_body p (ts n)).2

theorem tableInsert_same (t : CcTable) (k : String) (e : CcEntry) :
    tableInsert t k e k = some e := by
  simp [tableInsert]

theorem durOfSecs_clamp_pos (s : Nat) : 0 < durOfSecs (max s 1) := by
  have h1 : 1 ≤ max s 1 := le_max_right s 1
  have : 0 < nanosPerSec := by norm_num [nanosPerSec]
  calc 0 < 1 * nanosPerSec := by simpa using this
    _ ≤ max s 1 * nanosPerSec := Nat.mul_le_mul_right _ h1

theorem ccCheck_fresh (t : CcTable) (rid kb : String) (p : CcParams) (now : Nat)
    (he : t (ccKey rid kb) = none) :
    ccCheck t rid kb p now =
      (tableInsert t (ccKey rid kb) ⟨now, 1, none, now⟩, none) := by
  have hroll : ¬ durOfSecs (max p.window_secs 1) ≤ now - now := by
    have := durOfSecs_clamp_pos p.window_secs
    omega
  have hcnt : ¬ max p.max_requests 1 < 0 + 1 := by
    have := le_max_right p.max_requests 1
    omega
  simp only [ccCheck, ccFinish, he, Option.getD_none]
  simp [hroll, hcnt]

theorem ccCheck_grow (t : CcTable) (rid kb : String) (p : CcParams) (now : Nat)
    (e : CcEntry) (he : t (ccKey rid kb) = some e) (hb : e.blocked_until = none)
    (hroll : now - e.window_start < durOfSecs (max p.window_secs 1))
    (hcnt : e.count + 1 ≤ max p.max_requests 1) :
    ccCheck t rid kb p now =
      (tableInsert t (ccKey rid kb) ⟨e.window_start, e.count + 1, none, now⟩, none) := by
  have hroll' : ¬ durOfSecs (max p.window_secs 1) ≤ now - e.window_start :=
    not_le.mpr hroll
  have hcnt' : ¬ max p.max_requests 1 < e.count + 1 := not_lt.mpr hcnt
  simp only [ccCheck, ccFinish, he, Option.getD_some, hb]
  simp [hroll', hcnt']

theorem ccCheck_exceed (t : CcTable) (rid kb : String) (p : CcParams) (now : Nat)
    (e : CcEntry) (he : t (ccKey rid kb) = some e) (hb : e.blocked_until = none)
    (hroll : now - e.window_start < durOfSecs (max p.window_secs 1))
    (hcnt : max p.max_requests 1 < e.count + 1) :
    ccCheck t rid kb p now =
      (tableInsert t (ccKey rid kb)
        ⟨e.window_start, e.count + 1,
          some (now + durOfSecs (max p.block_secs 1)), now⟩,
        some ⟨"cc exceeded " ++ toString (max p.max_requests 1) ++ " req/" ++
          toString p.window_secs ++ "s on " ++ rid⟩) := by
  have hroll' : ¬ durOfSecs (max p.window_secs 1) ≤ now - e.window_start :=
    not_le.mpr hroll
  simp only [ccCheck, ccFinish, he, Option.getD_some, hb]
  simp [hroll', hcnt]

theorem cc_burst_inv (t : CcTable) (rid kb : String) (p : CcParams) (ts : Nat → Nat)
    (hfresh : t (ccKey rid kb) = none)
    (hwin : ∀ i, i ≤ p.max_requests → ts i - ts 0 < durOfSecs (max p.window_secs 1)) :
    ∀ i, i ≤ p.max_requests → 1 ≤ i →
      ccTblAfter t rid kb p ts i (ccKey rid kb) = some ⟨ts 0, i, none, ts (i - 1)⟩ := by
  intro i
  induction i with
  | zero => omega
  | succ n ih =>
    intro hle _
    by_cases hn : n = 0
    · subst hn
      show (ccCheck (ccTblAfter t rid kb p ts 0) rid kb p (ts 0)).1 (ccKey rid kb) = _
      rw [show ccTblAfter t rid kb p ts 0 = t from rfl,
        ccCheck_fresh t rid kb p (ts 0) hfresh]
      simp [tableInsert_same]
    · have h1n : 1 ≤ n := Nat.one_le_iff_ne_zero.mpr hn
      have hnle : n ≤ p.max_requests := Nat.le_of_succ_le hle
      have prev := ih hnle h1n
      show (ccCheck (ccTblAfter t rid kb p ts n) rid kb p (ts n)).1 (ccKey rid kb) = _
      rw [ccCheck_grow (ccTblAfter t rid kb p ts n) rid kb p (ts n)
        ⟨ts 0, n, none, ts (n - 1)⟩ prev rfl
        (by simpa using hwin n hnle)
        (le_max_of_le_left hle)]
      simp [tableInsert_same]

/-- Claim C1.  The CC limiter implements the specified per-key state
machine: while `blocked_until` is set and `now < blocked_until`, `check`
returns a hit with reason `"cc blocked: <rule_id>"` and leaves the
counter (and the rest of the entry state) unchanged; and within a single
window, a fresh key receiving `max_requests + k` calls (`k ≥ 1`) gets at
least one hit with reason `"cc exceeded <max> req/<window>s on
<rule_id>"`, that call setting `blocked_until = now + block_secs`. -/
theorem cc_check_state_machine :
    (∀ (t : CcTable) (rid kb : String) (p : CcParams) (now u : Nat) (e : CcEntry),
        t (ccKey rid kb) = some e → e.blocked_until = some u → now < u →
        (ccCheck t rid kb p now).2 = some ⟨"cc blocked: " ++ rid⟩ ∧
        ∃ e2, (ccCheck t rid kb p now).1 (ccKey rid kb) = some e2 ∧
          e2.count = e.count ∧ e2.blocked_until = e.blocked_until ∧
          e2.window_start = e.window_start) ∧
    (∀ (t : CcTable) (rid kb : String) (p : CcParams) (ts : Nat → Nat) (kk : Nat),
        1 ≤ kk → 1 ≤ p.max_requests → 1 ≤ p.block_secs →
        t (ccKey rid kb) = none →
        (∀ i, i < p.max_requests + kk →
          ts i - ts 0 < durOfSecs (max p.window_secs 1)) →
        ∃ j, j < p.max_requests + kk ∧
          ccResult t rid kb p ts j =
            some ⟨"cc exceeded " ++ toString p.max_requests ++ " req/" ++
              toString p.window_secs ++ "s on " ++ rid⟩ ∧
          ∃ e, ccTblAfter t rid kb p ts (j + 1) (ccKey rid kb) = some e ∧
            e.blocked_until = some (ts j + durOfSecs p.block_secs)) := by
  constructor
  · intro t rid kb p now u e he hb hlt
    have : ccCheck t rid kb p now =
        (tableInsert t (ccKey rid kb) { e with last_seen := now },
          some ⟨"cc blocked: " ++ rid⟩) := by
      simp only [ccCheck, he, Option.getD_some]
      have hb' : ({ e with last_seen := now } : CcEntry).blocked_until = some u := hb
      rw [hb']
      simp [hlt]
    refine ⟨by rw [this], ⟨{ e with last_seen := now }, ?_, rfl, rfl, rfl⟩⟩
    rw [this]
    exact tableInsert_same ..
  · intro t rid kb p ts kk hk hmax hblock hfresh hwin
    have hwin' : ∀ i, i ≤ p.max_requests →
        ts i - ts 0 < durOfSecs (max p.window_secs 1) := by
      intro i hi
      exact hwin i (by omega)
    refine ⟨p.max_requests, by omega, ?_, ?_⟩
    · show (ccCheck (ccTblAfter t rid kb p ts p.max_requests) rid kb p
        (ts p.max_requests)).2 = _
      rw [ccCheck_exceed (ccTblAfter t rid kb p ts p.max_requests) rid kb p
        (ts p.max_requests) ⟨ts 0, p.max_requests, none, ts (p.max_requests - 1)⟩
        (cc_burst_inv t rid kb p ts hfresh hwin' p.max_requests le_rfl hmax)
        rfl (by simpa using hwin' p.max_requests le_rfl)
        (by simp [Nat.max_eq_left hmax])]
      simp [Nat.max_eq_left hmax]
    · refine ⟨⟨ts 0, p.max_requests + 1,
        some (ts p.max_requests + durOfSecs (max p.block_secs 1)),
        ts p.max_requests⟩, ?_, by simp [Nat.max_eq_left hblock]⟩
      show (ccCheck (ccTblAfter t rid kb p ts p.max_requests) rid kb p
        (ts p.max_requests)).1 (ccKey rid kb) = _
      rw [ccCheck_exceed (ccTblAfter t rid kb p ts p.max_requests) rid kb p
        (ts p.max_requests) ⟨ts 0, p.max_requests, none, ts (p.max_requests - 1)⟩
        (cc_burst_inv t rid kb p ts hfresh hwin' p.max_requests le_rfl hmax)
        rfl (by simpa using hwin' p.max_requests le_rfl)
        (by simp [Nat.max_eq_left hmax])]
      exact tableInsert_same ..

/-- Witness for `cc_check_state_machine` at concrete inputs. -/
theorem cc_check_state_machine_witness :
    ((fun x => if x = ccKey "r" "k" then
        some (⟨0, 5, some 10, 0⟩ : CcEntry) else none) (ccKey "r" "k") =
      some (⟨0, 5, some 10, 0⟩ : CcEntry)) ∧
    (ccCheck (fun x => if x = ccKey "r" "k" then some ⟨0, 5, some 10, 0⟩ else none)
        "r" "k" ⟨1, 1, 1⟩ 3).2 = some ⟨"cc blocked: r"⟩ ∧
    (∃ j, j < 1 + 1 ∧
      ccResult (fun _ => none) "r" "k" ⟨1, 1, 1⟩ (fun _ => 0) j =
        some ⟨"cc exceeded 1 req/1s on r"⟩ ∧
      ∃ e, ccTblAfter (fun _ => none) "r" "k" ⟨1, 1, 1⟩ (fun _ => 0) (j + 1)
          (ccKey "r" "k") = some e ∧
        e.blocked_until = some (0 + durOfSecs 1)) := by
  refine ⟨rfl, ?_, ?_⟩
  · exact (cc_check_state_machine.1 _ "r" "k" ⟨1, 1, 1⟩ 3 10 ⟨0, 5, some 10, 0⟩
      rfl rfl (by norm_num)).1
  · exact cc_check_state_machine.2 (fun _ => none) "r" "k" ⟨1, 1, 1⟩ (fun _ => 0) 1
      (by norm_num) (by norm_num) (by norm_num) rfl
      (by intro i _; simpa using durOfSecs_clamp_pos 1)

/-! ### Request context (src/waf/context.rs) and header view

The client IP is carried as its rendered string (key.rs only ever calls
`ip.to_string()` on it). -/

/-- Request evaluation context, mirroring `WafContext` in context.rs. -/
structure WafContext where
  method : String
  path : String
  client_ip : Option String
  host : Option String
  user_agent : Option String
deriving Repr, DecidableEq

/-- The `HeaderView` trait: a header lookup function. -/
def HeaderView : Type := String → Option String

/-! ### Protection rules (src/policy/protection/) -/

/-- Header equality spec, mirroring `HeaderEq` in protection/types.rs. -/
structure HeaderEq where
  name : String
  value : String
deriving Repr, DecidableEq

/-- Header regex spec, mirroring `HeaderRegex` in protection/types.rs. -/
structure HeaderRegexSpec where
  name : String
  pattern : String
deriving Repr, DecidableEq

/-- Source match expression, mirroring `MatchExpr` in protection/types.rs. -/
inductive MatchExpr where
  | Any : MatchExpr
  | PathPrefix : String → MatchExpr
  | MethodIn : List String → MatchExpr
  | HostIn : List String → MatchExpr
  | HeaderExists : String → MatchExpr
  | HeaderEquals : HeaderEq → MatchExpr
  | HeaderRegex : HeaderRegexSpec → MatchExpr
  | And : List MatchExpr → MatchExpr
  | Or : List MatchExpr → MatchExpr
  | Not : MatchExpr → MatchExpr

/-- Compiled match expression, mirroring `CompiledMatchExpr` in
protection/compiled.rs.  A compiled `Regex` is carried as its pattern
text; matching is delegated to an abstract regex engine parameter. -/
inductive CompiledMatchExpr where
  | Any : CompiledMatchExpr
  | PathPrefix : String → CompiledMatchExpr
  | MethodIn : List String → CompiledMatchExpr
  | HostIn : List String → CompiledMatchExpr
  | HeaderExists : String → CompiledMatchExpr
  | HeaderEquals : String → String → CompiledMatchExpr
  | HeaderRegex : String → String → CompiledMatchExpr
  | And : List CompiledMatchExpr → CompiledMatchExpr
  | Or : List CompiledMatchExpr → CompiledMatchExpr
  | Not : CompiledMatchExpr → CompiledMatchExpr

mutual

/-- Compilation of a match expression, mirroring `compile_match` in
protection/compiled.rs.  The only fallible step in the source is
third-party regex compilation, which the embedding abstracts away by
keeping the pattern text; everything else is total.  Note that the
source lowercases the header name for `HeaderEquals` and `HeaderRegex`
but stores the `HeaderExists` name verbatim. -/
def compileMatch : MatchExpr → CompiledMatchExpr
  | .Any => .Any
  | .PathPrefix p => .PathPrefix p
  | .MethodIn ms => .MethodIn ms
  | .HostIn hs => .HostIn hs
  | .HeaderExists n => .HeaderExists n
  | .HeaderEquals he => .HeaderEquals (lowerStr he.name) he.value
  | .HeaderRegex hr => .HeaderRegex (lowerStr hr.name) hr.pattern
  | .And xs => .And (compileMatchL xs)
  | .Or xs => .Or (compileMatchL xs)
  | .Not x => .Not (compileMatch x)
termination_by m => sizeOf m

/-- Compilation of a list of match expressions. -/
def compileMatchL : List MatchExpr → List CompiledMatchExpr
  | [] => []
  | x :: t => compileMatch x :: compileMatchL t
termination_by l => sizeOf l

end

mutual

/-- Evaluation of a compiled match expression against the context and a
header view, mirroring `eval` in protection/matcher.rs.  `rx` is the
abstract regex engine (`Regex::is_match`). -/
def evalMatch (rx : String → String → Bool) (ctx : WafContext) (hv : HeaderView) :
    CompiledMatchExpr → Bool
  | .Any => true
  | .PathPrefix p => p.isPrefixOf ctx.path
  | .MethodIn ms => ms.any (fun m => eqIgnoreAsciiCase m ctx.method)
  | .HostIn hs =>
    match ctx.host with
    | none => false
    | some h => hs.any (fun x => eqIgnoreAsciiCase x h)
  | .HeaderExists n => (hv n).isSome
  | .HeaderEquals n v =>
    match hv n with
    | some x => x == v
    | none => false
  | .HeaderRegex n pat =>
    match hv n with
    | some x => rx pat x
    | none => false
  | .And xs => evalMatchAll rx ctx hv xs
  | .Or xs => evalMatchAny rx ctx hv xs
  | .Not x => ! evalMatch rx ctx hv x
termination_by m => sizeOf m

/-- Short-circuit conjunction over children (`iter().all`). -/
def evalMatchAll (rx : String → String → Bool) (ctx : WafContext) (hv : HeaderView) :
    List CompiledMatchExpr → Bool
  | [] => true
  | x :: t => evalMatch rx ctx hv x && evalMatchAll rx ctx hv t
termination_by l => sizeOf l

/-- Short-circuit disjunction over children (`iter().any`). -/
def evalMatchAny (rx : String → String → Bool) (ctx : WafContext) (hv : HeaderView) :
    List CompiledMatchExpr → Bool
  | [] => false
  | x :: t => evalMatch rx ctx hv x || evalMatchAny rx ctx hv t
termination_by l => sizeOf l

end

/-- Compiled action, mirroring `CompiledAction` in protection/compiled.rs.
Field order of `Cc`: key parts, window seconds, max requests, block
seconds, on-limit action. -/
inductive CompiledAction where
  | Allow : Option String → CompiledAction
  | Log : String → CompiledAction
  | Block : Nat → String → CompiledAction
  | Challenge : Nat → String → CompiledAction
  | Cc : List String → Nat → Nat → Nat → CompiledAction → CompiledAction
deriving Repr, DecidableEq

/-- Compiled protection rule, mirroring `CompiledRule` in
protection/compiled.rs. -/
structure CompiledRule where
  id : String
  matcher : CompiledMatchExpr
  action : CompiledAction

/-- Decision, mirroring `Decision` in waf/decision.rs.  Constructor
arguments follow the source field order: status, reason, rule id. -/
inductive Decision where
  | Allow : Decision
  | Log : String → String → Decision
  | Block : Nat → String → String → Decision
  | Challenge : Nat → String → String → Decision
deriving Repr, DecidableEq

/-- Terminality predicate, mirroring `Decision::is_terminal`. -/
def Decision.isTerminal : Decision → Bool
  | .Block _ _ _ => true
  | .Challenge _ _ _ => true
  | _ => false

/-- Cookie-pair scan, mirroring `get_cookie_value` in
protection/cookie.rs. -/
def isWsChar (c : Char) : Bool := c.isWhitespace

/-- Rust `str::trim` on a character list (both ends). -/
def trimL (l : List Char) : List Char :=
  ((l.dropWhile isWsChar).reverse.dropWhile isWsChar).reverse

/-- ASCII case-insensitive equality of character lists. -/
def eqIgnoreAsciiCaseL (a b : List Char) : Bool :=
  a.map asciiLowerChar == b.map asciiLowerChar

/-- One turn of the `get_cookie_value` loop: skip separators, split the
next `;`-delimited pair, compare the trimmed key case-insensitively. -/
def cookieLoop (name : List Char) (s : List Char) : Option (List Char) :=
  let s1 := s.dropWhile (fun c => c = ' ' || c = ';')
  if h : s1 = [] then none
  else
    let endIdx := ((s1.findIdx? (fun c => c = ';')).getD s1.length)
    let pair := s1.take endIdx
    let rest := if endIdx < s1.length then s1.drop (endIdx + 1) else []
    have hrest : rest.length < s.length := by
      have hle : s1.length ≤ s.length := (List.dropWhile_sublist _).length_le
      have hpos : 0 < s1.length := List.length_pos.mpr h
      by_cases hcase : endIdx < s1.length
      · simp only [rest, if_pos hcase, List.length_drop]
        omega
      · simp only [rest, if_neg hcase, List.length_nil]
        omega
    match pair.findIdx? (fun c => c = '=') with
    | none => cookieLoop name rest
    | some eq =>
      let k := trimL (pair.take eq)
      if eqIgnoreAsciiCaseL k name then some (trimL (pair.drop (eq + 1)))
      else cookieLoop name rest
termination_by s.length

/-- Cookie header lookup, mirroring `get_cookie_value`. -/
def getCookieValue (cookieHeader name : List Char) : Option (List Char) :=
  cookieLoop name cookieHeader

/-- Rust `str::strip_prefix` as an option. -/
def stripPfx (p s : String) : Option String :=
  if p.data.isPrefixOf s.data then some ⟨s.data.drop p.data.length⟩ else none

/-- Value of one key part, mirroring `part_value` in protection/key.rs. -/
def partValue (part : String) (ctx : WafContext) (hv : HeaderView)
    (cookieHeader : Option String) : String :=
  if part = "client_ip" then ctx.client_ip.getD "0.0.0.0"
  else if part = "host" then ctx.host.getD ""
  else if part = "path" then ctx.path
  else if part = "method" then ctx.method
  else if part = "user_agent" then ctx.user_agent.getD ""
  else
    match stripPfx "header:" part with
    | some name => (hv name).getD ""
    | none =>
      match stripPfx "cookie:" part with
      | some name =>
        match cookieHeader with
        | some ch =>
          match getCookieValue ch.data name.data with
          | some v => ⟨v⟩
          | none => ""
        | none => ""
      | none => ""

/-- Key-body construction, mirroring `build_key` in protection/key.rs:
`"<part>=<value>"` segments joined by `|`. -/
def buildKey (parts : List String) (ctx : WafContext) (hv : HeaderView) : String :=
  let ch := hv "cookie"
  String.intercalate "|" (parts.map (fun p => p ++ "=" ++ partValue p ctx hv ch))

/-- Action execution, mirroring `ProtectionEngine::exec_action`.  The CC
limiter table is threaded explicitly; `now` is the call instant. -/
def execAction (rule_id : String) (a : CompiledAction) (ctx : WafContext)
    (hv : HeaderView) (tbl : CcTable) (now : Nat) : Decision × CcTable :=
  match a with
  | .Allow _ => (.Allow, tbl)
  | .Log _ => (.Allow, tbl)
  | .Block status reason => (.Block status reason rule_id, tbl)
  | .Challenge status reason => (.Challenge status reason rule_id, tbl)
  | .Cc key_parts window_secs max_requests block_secs on_limit =>
    let key_body := buildKey key_parts ctx hv
    let r := ccCheck tbl rule_id key_body ⟨window_secs, max_requests, block_secs⟩ now
    match r.2 with
    | none => (.Allow, r.1)
    | some hit =>
      match on_limit with
      | .Log _ => (.Allow, r.1)
      | .Challenge status reason =>
        (.Challenge status (hit.reason ++ "; " ++ reason) rule_id, r.1)
      | .Block status reason =>
        (.Block status (hit.reason ++ "; " ++ reason) rule_id, r.1)
      | _ => (.Block 429 hit.reason rule_id, r.1)

/-- Rule-list evaluation, mirroring `ProtectionEngine::eval_rules`:
skip rules whose matcher is false, execute the action of matching rules,
return the first terminal decision, default `Allow`. -/
def evalRules (rx : String → String → Bool) (rules : List CompiledRule)
    (ctx : WafContext) (hv : HeaderView) (tbl : CcTable) (now : Nat) :
    Decision × CcTable :=
  match rules with
  | [] => (.Allow, tbl)
  | r :: rest =>
    if evalMatch rx ctx hv r.matcher then
      let dr := execAction r.id r.action ctx hv tbl now
      if dr.1.isTerminal then dr
      else evalRules rx rest ctx hv dr.2 now
    else evalRules rx rest ctx hv tbl now

/-- Trace of all decisions executed by matching rules, with the same
state threading as `evalRules` but without the terminal short-circuit. -/
def execTrace (rx : String → String → Bool) (rules : List CompiledRule)
    (ctx : WafContext) (hv : HeaderView) (tbl : CcTable) (now : Nat) :
    List Decision :=
  match rules with
  | [] => []
  | r :: rest =>
    if evalMatch rx ctx hv r.matcher then
      let dr := execAction r.id r.action ctx hv tbl now
      dr.1 :: execTrace rx rest ctx hv dr.2 now
    else execTrace rx rest ctx hv tbl now

theorem evalRules_find (rx : String → String → Bool) (ctx : WafContext)
    (hv : HeaderView) (now : Nat) :
    ∀ (rules : List CompiledRule) (tbl : CcTable),
      (evalRules rx rules ctx hv tbl now).1 =
        ((execTrace rx rules ctx hv tbl now).find? Decision.isTerminal).getD .Allow := by
  intro rules
  induction rules with
  | nil => intro tbl; simp [evalRules, execTrace]
  | cons r rest ih =>
    intro tbl
    by_cases hm : evalMatch rx ctx hv r.matcher
    · by_cases ht : (execAction r.id r.action ctx hv tbl now).1.isTerminal
      · simp [evalRules, execTrace, hm, ht, List.find?]
      · simp only [evalRules, execTrace, if_pos hm]
        rw [if_neg (by simpa using ht)]
        rw [List.find?_cons_of_neg _ (by simpa using ht)]
        exact ih _
    · simp only [evalRules, execTrace, if_neg hm]
      exact ih tbl

/-- Claim C7.  The protection engine scans rules in order; a rule whose
matcher is false is skipped without effect; an executed `Allow` or `Log`
action (any non-terminal decision) lets evaluation continue with the
updated limiter state; an executed `Block` or `Challenge` decision is
returned immediately; with no terminal decision the result is `Allow`.
The first conjunct packages this as: the decision of `eval_rules` is the
first terminal decision in the executed-action trace, or `Allow`. -/
theorem protection_engine_eval_order :
    (∀ (rx : String → String → Bool) (rules : List CompiledRule) (ctx : WafContext)
        (hv : HeaderView) (tbl : CcTable) (now : Nat),
      (evalRules rx rules ctx hv tbl now).1 =
        ((execTrace rx rules ctx hv tbl now).find? Decision.isTerminal).getD .Allow) ∧
    (∀ (rx : String → String → Bool) (r : CompiledRule) (rest : List CompiledRule)
        (ctx : WafContext) (hv : HeaderView) (tbl : CcTable) (now : Nat),
      evalMatch rx ctx hv r.matcher = false →
      evalRules rx (r :: rest) ctx hv tbl now = evalRules rx rest ctx hv tbl now) ∧
    (∀ (rx : String → String → Bool) (r : CompiledRule) (rest : List CompiledRule)
        (ctx : WafContext) (hv : HeaderView) (tbl : CcTable) (now : Nat),
      evalMatch rx ctx hv r.matcher = true →
      (execAction r.id r.action ctx hv tbl now).1.isTerminal = true →
      evalRules rx (r :: rest) ctx hv tbl now = execAction r.id r.action ctx hv tbl now) ∧
    (∀ (rx : String → String → Bool) (r : CompiledRule) (rest : List CompiledRule)
        (ctx : WafContext) (hv : HeaderView) (tbl : CcTable) (now : Nat),
      evalMatch rx ctx hv r.matcher = true →
      (execAction r.id r.action ctx hv tbl now).1.isTerminal = false →
      evalRules rx (r :: rest) ctx hv tbl now =
        evalRules rx rest ctx hv (execAction r.id r.action ctx hv tbl now).2 now) ∧
    (∀ (rx : String → String → Bool) (ctx : WafContext) (hv : HeaderView)
        (tbl : CcTable) (now : Nat),
      evalRules rx [] ctx hv tbl now = (.Allow, tbl)) := by
  refine ⟨fun rx rules ctx hv tbl now => evalRules_find rx ctx hv now rules tbl,
    ?_, ?_, ?_, ?_⟩
  · intro rx r rest ctx hv tbl now hm
    simp [evalRules, hm]
  · intro rx r rest ctx hv tbl now hm ht
    simp [evalRules, hm, ht]
  · intro rx r rest ctx hv tbl now hm ht
    simp [evalRules, hm, ht]
  · intro rx ctx hv tbl now
    rfl

/-- Witness for `protection_engine_eval_order` at concrete inputs. -/
theorem protection_engine_eval_order_witness :
    (evalRules (fun _ _ => false)
        [⟨"a", .Not .Any, .Allow none⟩] ⟨"GET", "/", none, none, none⟩
        (fun _ => none) (fun _ => none) 0 =
      evalRules (fun _ _ => false) [] ⟨"GET", "/", none, none, none⟩
        (fun _ => none) (fun _ => none) 0) ∧
    (evalRules (fun _ _ => false)
        [⟨"b", .Any, .Block 403 "x"⟩] ⟨"GET", "/", none, none, none⟩
        (fun _ => none) (fun _ => none) 0 =
      execAction "b" (.Block 403 "x") ⟨"GET", "/", none, none, none⟩
        (fun _ => none) (fun _ => none) 0) ∧
    (evalRules (fun _ _ => false)
        [⟨"c", .Any, .Allow none⟩] ⟨"GET", "/", none, none, none⟩
        (fun _ => none) (fun _ => none) 0 =
      evalRules (fun _ _ => false) [] ⟨"GET", "/", none, none, none⟩
        (fun _ => none)
        (execAction "c" (.Allow none) ⟨"GET", "/", none, none, none⟩
          (fun _ => none) (fun _ => none) 0).2 0) := by
  refine ⟨?_, ?_, ?_⟩
  · exact protection_engine_eval_order.2.1 _ ⟨"a", .Not .Any, .Allow none⟩ [] _ _ _ 0
      (by simp [evalMatch])
  · exact protection_engine_eval_order.2.2.1 _ ⟨"b", .Any, .Block 403 "x"⟩ [] _ _ _ 0
      (by simp [evalMatch]) rfl
  · exact protection_engine_eval_order.2.2.2.1 _ ⟨"c", .Any, .Allow none⟩ [] _ _ _ 0
      (by simp [evalMatch]) rfl

mutual

/-- Header names occurring in a source match expression, in traversal
order: (`header_exists` names, `header_equals` names, `header_regex`
names). -/
def headerNames : MatchExpr → List String × List String × List String
  | .Any => ([], [], [])
  | .PathPrefix _ => ([], [], [])
  | .MethodIn _ => ([], [], [])
  | .HostIn _ => ([], [], [])
  | .HeaderExists n => ([n], [], [])
  | .HeaderEquals he => ([], [he.name], [])
  | .HeaderRegex hr => ([], [], [hr.name])
  | .And xs => headerNamesL xs
  | .Or xs => headerNamesL xs
  | .Not x => headerNames x
termination_by m => sizeOf m

/-- Header names of a list of source match expressions. -/
def headerNamesL : List MatchExpr → List String × List String × List String
  | [] => ([], [], [])
  | x :: t =>
    ((headerNames x).1 ++ (headerNamesL t).1,
      (headerNames x).2.1 ++ (headerNamesL t).2.1,
      (headerNames x).2.2 ++ (headerNamesL t).2.2)
termination_by l => sizeOf l

end

mutual

/-- Header names stored in a compiled match expression, same grouping. -/
def cHeaderNames : CompiledMatchExpr → List String × List String × List String
  | .Any => ([], [], [])
  | .PathPrefix _ => ([], [], [])
  | .MethodIn _ => ([], [], [])
  | .HostIn _ => ([], [], [])
  | .HeaderExists n => ([n], [], [])
  | .HeaderEquals n _ => ([], [n], [])
  | .HeaderRegex n _ => ([], [], [n])
  | .And xs => cHeaderNamesL xs
  | .Or xs => cHeaderNamesL xs
  | .Not x => cHeaderNames x
termination_by m => sizeOf m

/-- Header names stored in a list of compiled match expressions. -/
def cHeaderNamesL : List CompiledMatchExpr → List String × List String × List String
  | [] => ([], [], [])
  | x :: t =>
    ((cHeaderNames x).1 ++ (cHeaderNamesL t).1,
      (cHeaderNames x).2.1 ++ (cHeaderNamesL t).2.1,
      (cHeaderNames x).2.2 ++ (cHeaderNamesL t).2.2)
termination_by l => sizeOf l

end

mutual

theorem headerNames_compile : ∀ m : MatchExpr,
    cHeaderNames (compileMatch m) =
      ((headerNames m).1, ((headerNames m).2.1).map lowerStr,
        ((headerNames m).2.2).map lowerStr)
  | .Any => by simp [compileMatch, cHeaderNames, headerNames]
  | .PathPrefix p => by simp [compileMatch, cHeaderNames, headerNames]
  | .MethodIn ms => by simp [compileMatch, cHeaderNames, headerNames]
  | .HostIn hs => by simp [compileMatch, cHeaderNames, headerNames]
  | .HeaderExists n => by simp [compileMatch, cHeaderNames, headerNames]
  | .HeaderEquals he => by simp [compileMatch, cHeaderNames, headerNames]
  | .HeaderRegex hr => by simp [compileMatch, cHeaderNames, headerNames]
  | .And xs => by
    have := headerNamesL_compile xs
    simp [compileMatch, cHeaderNames, headerNames, this]
  | .Or xs => by
    have := headerNamesL_compile xs
    simp [compileMatch, cHeaderNames, headerNames, this]
  | .Not x => by
    have := headerNames_compile x
    simp [compileMatch, cHeaderNames, headerNames, this]
termination_by m => sizeOf m

theorem headerNamesL_compile : ∀ l : List MatchExpr,
    cHeaderNamesL (compileMatchL l) =
      ((headerNamesL l).1, ((headerNamesL l).2.1).map lowerStr,
        ((headerNamesL l).2.2).map lowerStr)
  | [] => by simp [compileMatchL, cHeaderNamesL, headerNamesL]
  | x :: t => by
    have hx := headerNames_compile x
    have ht := headerNamesL_compile t
    simp [compileMatchL, cHeaderNamesL, headerNamesL, hx, ht]
termination_by l => sizeOf l

end

/-- Counterexample for claim C9: `compile_match` stores the
`HeaderExists` name verbatim, not lowercased. -/
theorem compile_match_headerexists_counterexample :
    compileMatch (.HeaderExists "X-Api-Key") =
      CompiledMatchExpr.HeaderExists "X-Api-Key" ∧
    lowerStr "X-Api-Key" = "x-api-key" ∧
    ("X-Api-Key" : String) ≠ "x-api-key" := by
  refine ⟨by simp [compileMatch], by decide, by decide⟩

/-- Claim C9, amended.  Compiled `HeaderEquals` and `HeaderRegex`
expressions store the ASCII-lowercased source header name; compiled
`HeaderExists` expressions store the source name verbatim. -/
theorem compile_match_header_names (m : MatchExpr) :
    cHeaderNames (compileMatch m) =
      ((headerNames m).1, ((headerNames m).2.1).map lowerStr,
        ((headerNames m).2.2).map lowerStr) :=
  headerNames_compile m

/-! ### WAF ruleset (src/waf/rules/) and header-phase engine (src/waf/engine.rs) -/

/-- Ruleset action, mirroring `Action` in waf/rules/rule.rs. -/
inductive WafAction where
  | Allow : WafAction
  | Block : WafAction
  | Challenge : WafAction
deriving Repr, DecidableEq

/-- Rule conditions, mirroring `When` in waf/rules/rule.rs.  The source
field `path_prefix` (a list of prefixes) is pluralized here. -/
structure WafWhen where
  methods : Option (List String)
  path_prefixes : Option (List String)
  uri_ac : Option (List String)
  body_ac : Option (List String)
  header_regex : Option (List HeaderRegexSpec)
deriving Repr, DecidableEq

/-- Source WAF rule, mirroring `Rule` in waf/rules/rule.rs. -/
structure WafRuleSrc where
  id : String
  when : WafWhen
  action : WafAction
deriving Repr, DecidableEq

/-- Multi-pattern matcher, mirroring `AcMatcher` in waf/rules/matcher.rs.
The third-party Aho-Corasick automaton is carried as its pattern list;
its documented query semantics (ASCII case-insensitive multi-substring
search) is given by `isMatch` below. -/
structure AcMatcher where
  patterns : List (List Nat)
  max_pat_len : Nat
deriving Repr, DecidableEq

/-- Construction, mirroring `AcMatcher::new`: records the patterns and
the maximum pattern byte length. -/
def AcMatcher.new (pats : List String) : AcMatcher :=
  { patterns := pats.map strBytes
    max_pat_len := (pats.map (fun s => (strBytes s).length)).foldr max 0 }

/-- Query, mirroring `AcMatcher::is_match` with
`ascii_case_insensitive(true)`: some pattern occurs in the haystack up
to ASCII case. -/
def AcMatcher.isMatch (m : AcMatcher) (hay : List Nat) : Bool :=
  m.patterns.any (fun p => decide (lowB p <:+: lowB hay))

/-- Compiled WAF rule, mirroring `CompiledRule` in waf/rules/compiler.rs. -/
structure WafCompiledRule where
  id : String
  action : WafAction
  methods : Option (List String)
  path_prefixes : Option (List String)
  uri_ac : Option AcMatcher
  body_ac : Option AcMatcher
  header_regex : List (String × String)
deriving Repr, DecidableEq

/-- Compilation, mirroring `compile_rule` in waf/rules/compiler.rs:
methods are ASCII-uppercased, header-regex names lowercased (regex
compilation itself is third-party and kept as the pattern text). -/
def compileWafRule (r : WafRuleSrc) : WafCompiledRule :=
  { id := r.id
    action := r.action
    methods := r.when.methods.map (fun ms => ms.map upperStr)
    path_prefixes := r.when.path_prefixes
    uri_ac := r.when.uri_ac.map AcMatcher.new
    body_ac := r.when.body_ac.map AcMatcher.new
    header_regex := (r.when.header_regex.getD []).map
      (fun hr => (lowerStr hr.name, hr.pattern)) }

/-- Body-window match helper, mirroring `CompiledRule::body_match`. -/
def WafCompiledRule.bodyMatch (r : WafCompiledRule) (window : List Nat) : Bool :=
  match r.body_ac with
  | some ac => ac.isMatch window
  | none => false

/-- Retained-tail length, mirroring `CompiledRule::body_keep_len`
(`max_pat_len().saturating_sub(1)`, default 0). -/
def WafCompiledRule.bodyKeepLen (r : WafCompiledRule) : Nat :=
  match r.body_ac with
  | some ac => ac.max_pat_len - 1
  | none => 0

/-- Decision conversion, mirroring `CompiledRule::action_to_decision`. -/
def WafCompiledRule.actionToDecision (r : WafCompiledRule) : Decision :=
  match r.action with
  | .Allow => .Allow
  | .Block => .Block 403 "matched" r.id
  | .Challenge => .Challenge 403 "challenge" r.id

/-- Methods condition of `eval_request_headers`: exact string equality
(`m == method`) against any listed method; absent means pass. -/
def methodsPass (r : WafCompiledRule) (method : String) : Bool :=
  match r.methods with
  | none => true
  | some ms => ms.any (fun m => m == method)

/-- Path-prefix condition: byte-level `starts_with` against any listed
prefix; absent means pass. -/
def pathPfxPass (r : WafCompiledRule) (path : String) : Bool :=
  match r.path_prefixes with
  | none => true
  | some ps => ps.any (fun p => p.isPrefixOf path)

/-- URI pattern condition: the `uri_ac` matcher against the path bytes;
absent means pass. -/
def uriPass (r : WafCompiledRule) (path : String) : Bool :=
  match r.uri_ac with
  | none => true
  | some ac => ac.isMatch (strBytes path)

/-- Conjunction of the three skip conditions of `eval_request_headers`. -/
def rulePasses (r : WafCompiledRule) (method path : String) : Bool :=
  methodsPass r method && pathPfxPass r path && uriPass r path

/-- Loop of `WafEngine::eval_request_headers` with the enumeration index
and both deferred-index accumulators explicit. -/
def wafEvalFrom : List WafCompiledRule → Nat → String → String →
    List Nat → List Nat → Decision × List Nat × List Nat
  | [], _, _, _, ra, pa => (.Allow, ra, pa)
  | r :: rest, idx, method, path, ra, pa =>
    if methodsPass r method = false then wafEvalFrom rest (idx + 1) method path ra pa
    else if pathPfxPass r path = false then wafEvalFrom rest (idx + 1) method path ra pa
    else if uriPass r path = false then wafEvalFrom rest (idx + 1) method path ra pa
    else if r.body_ac.isSome then
      wafEvalFrom rest (idx + 1) method path (ra ++ [idx]) (pa ++ [idx])
    else (r.actionToDecision, ra, pa)

/-- Header-phase evaluation, mirroring `WafEngine::eval_request_headers`. -/
def wafEvalRequestHeaders (rules : List WafCompiledRule) (ctx : WafContext) :
    Decision × List Nat × List Nat :=
  wafEvalFrom rules 0 ctx.method ctx.path [] []

/-- Indices (from `idx`) of rules that pass all conditions and carry a
`body_ac`: the declaratively described deferred-rule list. -/
def deferredIdxs : List WafCompiledRule → Nat → String → String → List Nat
  | [], _, _, _ => []
  | r :: rest, idx, method, path =>
    if rulePasses r method path && r.body_ac.isSome then
      idx :: deferredIdxs rest (idx + 1) method path
    else deferredIdxs rest (idx + 1) method path

theorem wafEvalFrom_skip (r : WafCompiledRule) (rest : List WafCompiledRule)
    (idx : Nat) (method path : String) (ra pa : List Nat)
    (h : rulePasses r method path = false) :
    wafEvalFrom (r :: rest) idx method path ra pa =
      wafEvalFrom rest (idx + 1) method path ra pa := by
  simp only [rulePasses, Bool.and_eq_false_iff] at h
  rcases h with (h | h) | h <;> simp [wafEvalFrom, h]

theorem wafEvalFrom_defer (r : WafCompiledRule) (rest : List WafCompiledRule)
    (idx : Nat) (method path : String) (ra pa : List Nat)
    (h : rulePasses r method path = true) (hb : r.body_ac.isSome = true) :
    wafEvalFrom (r :: rest) idx method path ra pa =
      wafEvalFrom rest (idx + 1) method path (ra ++ [idx]) (pa ++ [idx]) := by
  simp only [rulePasses, Bool.and_eq_true] at h
  simp [wafEvalFrom, h.1.1, h.1.2, h.2, hb]

theorem wafEvalFrom_decide_now (r : WafCompiledRule) (rest : List WafCompiledRule)
    (idx : Nat) (method path : String) (ra pa : List Nat)
    (h : rulePasses r method path = true) (hb : r.body_ac = none) :
    wafEvalFrom (r :: rest) idx method path ra pa = (r.actionToDecision, ra, pa) := by
  simp only [rulePasses, Bool.and_eq_true] at h
  simp [wafEvalFrom, h.1.1, h.1.2, h.2, hb]

theorem deferredIdxs_cons_pass (r : WafCompiledRule) (rest : List WafCompiledRule)
    (idx : Nat) (method path : String)
    (h : rulePasses r method path = true) (hb : r.body_ac.isSome = true) :
    deferredIdxs (r :: rest) idx method path =
      idx :: deferredIdxs rest (idx + 1) method path := by
  simp [deferredIdxs, h, hb]

theorem wafEvalFrom_all_deferred (method path : String) :
    ∀ (rules : List WafCompiledRule) (idx : Nat) (ra pa : List Nat),
      (∀ i r, rules.get? i = some r → rulePasses r method path = true →
        r.body_ac.isSome = true) →
      wafEvalFrom rules idx method path ra pa =
        (.Allow, ra ++ deferredIdxs rules idx method path,
          pa ++ deferredIdxs rules idx method path) := by
  intro rules
  induction rules with
  | nil => intro idx ra pa _; simp [wafEvalFrom, deferredIdxs]
  | cons r rest ih =>
    intro idx ra pa hall
    have hall' : ∀ i r, rest.get? i = some r → rulePasses r method path = true →
        r.body_ac.isSome = true := by
      intro i rr hg hp
      exact hall (i + 1) rr (by simpa using hg) hp
    by_cases hp : rulePasses r method path
    · have hb : r.body_ac.isSome = true := hall 0 r rfl hp
      rw [wafEvalFrom_defer r rest idx method path ra pa hp hb,
        deferredIdxs_cons_pass r rest idx method path hp hb, ih (idx + 1) _ _ hall']
      simp
    · rw [wafEvalFrom_skip r rest idx method path ra pa (by simpa using hp),
        ih (idx + 1) ra pa hall']
      have : deferredIdxs (r :: rest) idx method path =
          deferredIdxs rest (idx + 1) method path := by
        simp [deferredIdxs, Bool.eq_false_iff.mpr hp]
      rw [this]

theorem wafEvalFrom_first_decider (method path : String) :
    ∀ (rules : List WafCompiledRule) (j : Nat) (idx : Nat) (ra pa : List Nat)
      (r : WafCompiledRule),
      rules.get? j = some r → rulePasses r method path = true → r.body_ac = none →
      (∀ i ri, i < j → rules.get? i = some ri → rulePasses ri method path = true →
        ri.body_ac.isSome = true) →
      wafEvalFrom rules idx method path ra pa =
        (r.actionToDecision,
          ra ++ deferredIdxs (rules.take j) idx method path,
          pa ++ deferredIdxs (rules.take j) idx method path) := by
  intro rules
  induction rules with
  | nil => intro j idx ra pa r hg; simp at hg
  | cons r0 rest ih =>
    intro j idx ra pa r hg hp hb hpre
    match j with
    | 0 =>
      have : r0 = r := by simpa using hg
      subst this
      rw [wafEvalFrom_decide_now r0 rest idx method path ra pa hp hb]
      simp [deferredIdxs]
    | jj + 1 =>
      have hg' : rest.get? jj = some r := by simpa using hg
      have hpre' : ∀ i ri, i < jj → rest.get? i = some ri →
          rulePasses ri method path = true → ri.body_ac.isSome = true := by
        intro i ri hi hgi hpi
        exact hpre (i + 1) ri (by omega) (by simpa using hgi) hpi
      by_cases hp0 : rulePasses r0 method path
      · have hb0 : r0.body_ac.isSome = true :=
          hpre 0 r0 (by omega) rfl hp0
        rw [wafEvalFrom_defer r0 rest idx method path ra pa hp0 hb0,
          ih jj (idx + 1) _ _ r hg' hp hb hpre']
        have : deferredIdxs ((r0 :: rest).take (jj + 1)) idx method path =
            idx :: deferredIdxs (rest.take jj) (idx + 1) method path := by
          simpa [List.take] using
            deferredIdxs_cons_pass r0 (rest.take jj) idx method path hp0 hb0
        rw [this]
        simp
      · rw [wafEvalFrom_skip r0 rest idx method path ra pa (by simpa using hp0),
          ih jj (idx + 1) ra pa r hg' hp hb hpre']
        have : deferredIdxs ((r0 :: rest).take (jj + 1)) idx method path =
            deferredIdxs (rest.take jj) (idx + 1) method path := by
          simp [List.take, deferredIdxs, Bool.eq_false_iff.mpr hp0]
        rw [this]

/-- Claim C6.  In `eval_request_headers`, a passing rule with a
`body_ac` appends its index to both deferred lists and evaluation
continues; the first passing rule without a `body_ac` yields its action
as a decision, returned immediately with the lists accumulated so far;
with no such rule the result is `Allow` with the accumulated lists. -/
theorem waf_header_phase_characterization :
    (∀ (rules : List WafCompiledRule) (ctx : WafContext),
      (∀ i r, rules.get? i = some r → rulePasses r ctx.method ctx.path = true →
        r.body_ac.isSome = true) →
      wafEvalRequestHeaders rules ctx =
        (.Allow, deferredIdxs rules 0 ctx.method ctx.path,
          deferredIdxs rules 0 ctx.method ctx.path)) ∧
    (∀ (rules : List WafCompiledRule) (ctx : WafContext) (j : Nat)
        (r : WafCompiledRule),
      rules.get? j = some r → rulePasses r ctx.method ctx.path = true →
      r.body_ac = none →
      (∀ i ri, i < j → rules.get? i = some ri →
        rulePasses ri ctx.method ctx.path = true → ri.body_ac.isSome = true) →
      wafEvalRequestHeaders rules ctx =
        (r.actionToDecision, deferredIdxs (rules.take j) 0 ctx.method ctx.path,
          deferredIdxs (rules.take j) 0 ctx.method ctx.path)) ∧
    (∀ (r : WafCompiledRule) (rest : List WafCompiledRule) (idx : Nat)
        (method path : String) (ra pa : List Nat),
      rulePasses r method path = true → r.body_ac.isSome = true →
      wafEvalFrom (r :: rest) idx method path ra pa =
        wafEvalFrom rest (idx + 1) method path (ra ++ [idx]) (pa ++ [idx])) ∧
    (∀ (r : WafCompiledRule) (rest : List WafCompiledRule) (idx : Nat)
        (method path : String) (ra pa : List Nat),
      rulePasses r method path = true → r.body_ac = none →
      wafEvalFrom (r :: rest) idx method path ra pa =
        (r.actionToDecision, ra, pa)) := by
  refine ⟨?_, ?_, wafEvalFrom_defer, wafEvalFrom_decide_now⟩
  · intro rules ctx hall
    simpa [wafEvalRequestHeaders] using
      wafEvalFrom_all_deferred ctx.method ctx.path rules 0 [] [] hall
  · intro rules ctx j r hg hp hb hpre
    simpa [wafEvalRequestHeaders] using
      wafEvalFrom_first_decider ctx.method ctx.path rules j 0 [] [] r hg hp hb hpre

/-- Witness for `waf_header_phase_characterization` at concrete inputs. -/
theorem waf_header_phase_characterization_witness :
    (wafEvalRequestHeaders [⟨"d", .Allow, none, none, none, some ⟨[[68]], 1⟩, []⟩]
        ⟨"GET", "/", none, none, none⟩ =
      (.Allow, deferredIdxs [⟨"d", .Allow, none, none, none, some ⟨[[68]], 1⟩, []⟩]
          0 "GET" "/",
        deferredIdxs [⟨"d", .Allow, none, none, none, some ⟨[[68]], 1⟩, []⟩]
          0 "GET" "/")) ∧
    (wafEvalRequestHeaders [⟨"b", .Block, none, none, none, none, []⟩]
        ⟨"GET", "/", none, none, none⟩ =
      (WafCompiledRule.actionToDecision ⟨"b", .Block, none, none, none, none, []⟩,
        deferredIdxs ([(⟨"b", .Block, none, none, none, none, []⟩ :
          WafCompiledRule)].take 0) 0 "GET" "/",
        deferredIdxs ([(⟨"b", .Block, none, none, none, none, []⟩ :
          WafCompiledRule)].take 0) 0 "GET" "/")) := by
  constructor
  · refine waf_header_phase_characterization.1 _ ⟨"GET", "/", none, none, none⟩ ?_
    intro i r hg hp
    match i with
    | 0 =>
      simp only [List.get?] at hg
      cases hg
      rfl
    | n + 1 => simp [List.get?] at hg
  · refine waf_header_phase_characterization.2.1 _ ⟨"GET", "/", none, none, none⟩
      0 ⟨"b", .Block, none, none, none, none, []⟩ rfl rfl rfl ?_
    intro i ri hi
    exact absurd hi (Nat.not_lt_zero i)

/-- Counterexample for claim C10: a ruleset method written in lowercase
(`"post"`) does match the uppercase request method `"POST"`, because the
rules compiler uppercases methods before the engine's exact comparison. -/
theorem waf_lowercase_method_matches :
    wafEvalRequestHeaders
        [compileWafRule ⟨"r1", ⟨some ["post"], none, none, none, none⟩, .Block⟩]
        ⟨"POST", "/", none, none, none⟩ =
      (Decision.Block 403 "matched" "r1", [], []) := by
  rfl

/-- Claim C10, amended.  The engine compares compiled method strings by
exact byte equality, but `compile_rule` ASCII-uppercases ruleset methods
first, so a lowercase-written method still matches an uppercase request
method; the protection engine's `MethodIn` instead compares the source
strings ASCII case-insensitively. -/
theorem waf_method_compare_amended :
    (∀ (r : WafRuleSrc) (ms : List String), r.when.methods = some ms →
      (compileWafRule r).methods = some (ms.map upperStr)) ∧
    (∀ (cr : WafCompiledRule) (ms : List String) (m : String),
      cr.methods = some ms → methodsPass cr m = ms.any (fun x => x == m)) ∧
    (∀ (rx : String → String → Bool) (ms : List String) (ctx : WafContext)
        (hv : HeaderView),
      evalMatch rx ctx hv (.MethodIn ms) =
        ms.any (fun x => eqIgnoreAsciiCase x ctx.method)) ∧
    methodsPass (compileWafRule
      ⟨"r1", ⟨some ["post"], none, none, none, none⟩, .Block⟩) "POST" = true ∧
    (("post" : String) == "POST") = false := by
  refine ⟨?_, ?_, ?_, rfl, rfl⟩
  · intro r ms h
    simp [compileWafRule, h]
  · intro cr ms m h
    simp [methodsPass, h]
  · intro rx ms ctx hv
    simp [evalMatch]

/-- Witness for `waf_method_compare_amended` at concrete inputs. -/
theorem waf_method_compare_amended_witness :
    (compileWafRule ⟨"r2", ⟨some ["get", "Put"], none, none, none, none⟩,
        .Allow⟩).methods = some (["get", "Put"].map upperStr) ∧
    methodsPass (compileWafRule
      ⟨"r2", ⟨some ["get", "Put"], none, none, none, none⟩, .Allow⟩) "GET" =
      (["get", "Put"].map upperStr).any (fun x => x == "GET") := by
  constructor
  · exact waf_method_compare_amended.1
      ⟨"r2", ⟨some ["get", "Put"], none, none, none, none⟩, .Allow⟩
      ["get", "Put"] rfl
  · exact waf_method_compare_amended.2.1
      (compileWafRule ⟨"r2", ⟨some ["get", "Put"], none, none, none, none⟩, .Allow⟩)
      (["get", "Put"].map upperStr) "GET" rfl

/-! ### Domain matcher (src/policy/domain_map.rs) -/

/-- Parsed domain-map file, mirroring `DomainMapFile` (the per-host
`DomainTarget` collapses to its `policy` field). -/
structure DomainMapFile where
  version : Nat
  domains : List (String × String)
  default_policy : String

/-- Runtime matcher, mirroring `DomainMatcher`. -/
structure DomainMatcher where
  exact : List (String × String)
  wildcard_suffix : List (String × String)
  default_policy : String

/-- Rust `key.strip_prefix("*.")` on the domain key. -/
def stripStarDot (s : String) : Option String :=
  match s.data with
  | '*' :: '.' :: rest => some ⟨rest⟩
  | _ => none

/-- Partition the domain entries into exact entries and wildcard
suffixes, lowercasing keys, as the loop in `DomainMatcher::from_file`. -/
def splitDomains : List (String × String) → List (String × String) × List (String × String)
  | [] => ([], [])
  | (k, v) :: rest =>
    let p := splitDomains rest
    let key := lowerStr k
    match stripStarDot key with
    | some suf => (p.1, (suf, v) :: p.2)
    | none => ((key, v) :: p.1, p.2)

/-- Sort order used by `from_file`: longer suffix first. -/
def lenGe (a b : String × String) : Prop := b.1.length ≤ a.1.length

instance lenGeDecidable : DecidableRel lenGe := fun a b => Nat.decLe b.1.length a.1.length

instance lenGeTotal : IsTotal (String × String) lenGe :=
  ⟨fun a b => Nat.le_total b.1.length a.1.length⟩

instance lenGeTrans : IsTrans (String × String) lenGe :=
  ⟨fun _ _ _ h1 h2 => le_trans h2 h1⟩

/-- Construction, mirroring `DomainMatcher::from_file`: split entries,
then sort the wildcard suffixes by descending byte length (stable). -/
def DomainMatcher.fromFile (f : DomainMapFile) : DomainMatcher :=
  { exact := (splitDomains f.domains).1
    wildcard_suffix := List.insertionSort lenGe (splitDomains f.domains).2
    default_policy := f.default_policy }

/-- Association lookup standing in for `HashMap::get`. -/
def lookupA {α : Type} : List (String × α) → String → Option α
  | [], _ => none
  | (k, v) :: t, x => if k = x then some v else lookupA t x

/-- Wildcard test of `match_policy_id`:
`h == *suf || h.ends_with(&format!(".{}", suf))`. -/
def wcMatches (h suf : String) : Prop := h = suf ∨ ('.' :: suf.data) <:+ h.data

instance wcMatchesDecidable (h suf : String) : Decidable (wcMatches h suf) :=
  inferInstanceAs (Decidable (_ ∨ _))

/-- Host lookup, mirroring `DomainMatcher::match_policy_id`. -/
def DomainMatcher.matchPolicyId (m : DomainMatcher) (host : String) : String :=
  let h := lowerStr host
  match lookupA m.exact h with
  | some p => p
  | none =>
    match m.wildcard_suffix.find? (fun sp => decide (wcMatches h sp.1)) with
    | some sp => sp.2
    | none => m.default_policy

theorem find?_true_of_mem {α : Type} (pred : α → Bool) :
    ∀ (l : List α) (x : α), x ∈ l → pred x = true → ∃ q, l.find? pred = some q := by
  intro l
  induction l with
  | nil => intro x hx; simp at hx
  | cons a t ih =>
    intro x hx hp
    by_cases ha : pred a
    · exact ⟨a, List.find?_cons_of_pos _ ha⟩
    · rcases List.mem_cons.mp hx with rfl | hx'
      · exact absurd hp ha
      · obtain ⟨q, hq⟩ := ih x hx' hp
        exact ⟨q, by rw [List.find?_cons_of_neg _ ha]; exact hq⟩

theorem find?_max_sorted (pred : String × String → Bool) :
    ∀ (l : List (String × String)), l.Sorted lenGe →
      ∀ q, l.find? pred = some q →
        ∀ x ∈ l, pred x = true → x.1.length ≤ q.1.length := by
  intro l
  induction l with
  | nil => intro _ q hq; simp at hq
  | cons a t ih =>
    intro hs q hq x hx hp
    obtain ⟨hrel, hst⟩ := List.sorted_cons.mp hs
    by_cases ha : pred a
    · rw [List.find?_cons_of_pos _ ha, Option.some_inj] at hq
      subst hq
      rcases List.mem_cons.mp hx with rfl | hx'
      · exact le_rfl
      · exact hrel x hx'
    · rw [List.find?_cons_of_neg _ ha] at hq
      rcases List.mem_cons.mp hx with rfl | hx'
      · exact absurd hp ha
      · exact ih hst q hq x hx' hp

/-- Claim C4.  Exact entries take precedence; among wildcard suffixes
the matcher selects a matching suffix of maximal byte length (the
wildcard list is sorted longest-first and scanned in order); with no
match at all the default policy id is returned. -/
theorem domain_matcher_specificity :
    (∀ (f : DomainMapFile) (host pid : String),
      lookupA (DomainMatcher.fromFile f).exact (lowerStr host) = some pid →
      (DomainMatcher.fromFile f).matchPolicyId host = pid) ∧
    (∀ (f : DomainMapFile) (host : String) (s0 : String × String),
      lookupA (DomainMatcher.fromFile f).exact (lowerStr host) = none →
      s0 ∈ (DomainMatcher.fromFile f).wildcard_suffix →
      wcMatches (lowerStr host) s0.1 →
      ∃ sp, sp ∈ (DomainMatcher.fromFile f).wildcard_suffix ∧
        wcMatches (lowerStr host) sp.1 ∧
        (DomainMatcher.fromFile f).matchPolicyId host = sp.2 ∧
        ∀ sq ∈ (DomainMatcher.fromFile f).wildcard_suffix,
          wcMatches (lowerStr host) sq.1 → sq.1.length ≤ sp.1.length) ∧
    (∀ (f : DomainMapFile) (host : String),
      lookupA (DomainMatcher.fromFile f).exact (lowerStr host) = none →
      (∀ sq ∈ (DomainMatcher.fromFile f).wildcard_suffix,
        ¬ wcMatches (lowerStr host) sq.1) →
      (DomainMatcher.fromFile f).matchPolicyId host = f.default_policy) := by
  refine ⟨?_, ?_, ?_⟩
  · intro f host pid hlook
    simp [DomainMatcher.matchPolicyId, hlook]
  · intro f host s0 hexact hmem hm
    obtain ⟨q, hq⟩ := find?_true_of_mem
      (fun sp => decide (wcMatches (lowerStr host) sp.1))
      (DomainMatcher.fromFile f).wildcard_suffix s0 hmem (by simpa using hm)
    have hsorted : (DomainMatcher.fromFile f).wildcard_suffix.Sorted lenGe :=
      List.sorted_insertionSort lenGe (splitDomains f.domains).2
    refine ⟨q, List.mem_of_find?_eq_some hq, by simpa using List.find?_some hq,
      ?_, ?_⟩
    · simp [DomainMatcher.matchPolicyId, hexact, hq]
    · intro sq hsq hsqm
      exact find?_max_sorted _ _ hsorted q hq sq hsq (by simpa using hsqm)
  · intro f host hexact hnone
    have hfind : (DomainMatcher.fromFile f).wildcard_suffix.find?
        (fun sp => decide (wcMatches (lowerStr host) sp.1)) = none := by
      rw [List.find?_eq_none]
      intro x hx
      simpa using hnone x hx
    simp only [DomainMatcher.matchPolicyId, hexact, hfind]
    rfl

/-- Witness for `domain_matcher_specificity` at concrete inputs: the map
`{a.example.com → P1, *.example.com → P2, *.com → P3, default = PD}`. -/
theorem domain_matcher_specificity_witness :
    ((DomainMatcher.fromFile ⟨1, [("a.example.com", "P1"), ("*.example.com", "P2"),
        ("*.com", "P3")], "PD"⟩).matchPolicyId "a.example.com" = "P1") ∧
    (∃ sp, sp ∈ (DomainMatcher.fromFile ⟨1, [("a.example.com", "P1"),
        ("*.example.com", "P2"), ("*.com", "P3")], "PD"⟩).wildcard_suffix ∧
      wcMatches (lowerStr "b.example.com") sp.1 ∧
      (DomainMatcher.fromFile ⟨1, [("a.example.com", "P1"), ("*.example.com", "P2"),
        ("*.com", "P3")], "PD"⟩).matchPolicyId "b.example.com" = sp.2 ∧
      ∀ sq ∈ (DomainMatcher.fromFile ⟨1, [("a.example.com", "P1"),
          ("*.example.com", "P2"), ("*.com", "P3")], "PD"⟩).wildcard_suffix,
        wcMatches (lowerStr "b.example.com") sq.1 → sq.1.length ≤ sp.1.length) ∧
    ((DomainMatcher.fromFile ⟨1, [("a.example.com", "P1"), ("*.example.com", "P2"),
        ("*.com", "P3")], "PD"⟩).matchPolicyId "foo.net" = "PD") := by
  refine ⟨?_, ?_, ?_⟩
  · exact domain_matcher_specificity.1
      ⟨1, [("a.example.com", "P1"), ("*.example.com", "P2"), ("*.com", "P3")], "PD"⟩
      "a.example.com" "P1" (by decide)
  · exact domain_matcher_specificity.2.1
      ⟨1, [("a.example.com", "P1"), ("*.example.com", "P2"), ("*.com", "P3")], "PD"⟩
      "b.example.com" ("example.com", "P2") (by decide) (by decide) (by decide)
  · exact domain_matcher_specificity.2.2
      ⟨1, [("a.example.com", "P1"), ("*.example.com", "P2"), ("*.com", "P3")], "PD"⟩
      "foo.net" (by decide) (by decide)

/-! ### Policy manager (src/policy/manager.rs) -/

/-- Per-policy WAF switch, mirroring `WafConfig` in policy/types.rs
(`Default` gives `enabled = false`, `ruleset = None`). -/
structure WafConfig where
  enabled : Bool
  ruleset : Option String
deriving Repr, DecidableEq

/-- Compiled policy, mirroring `CompiledPolicy` in policy/compiled.rs. -/
structure CompiledPolicy where
  version : Nat
  id : String
  waf : WafConfig
  precise : List CompiledRule
  base : List CompiledRule

/-- The atomically swappable policy state, mirroring `PolicyState` in
policy/manager.rs; the CC limiter is its table. -/
structure PolicyState where
  matcher : DomainMatcher
  policies : List (String × CompiledPolicy)
  cc : CcTable

/-- The synthesized fallback of `get_policy_for_host`'s
`unwrap_or_else` branch. -/
def fallbackPolicy : CompiledPolicy :=
  { version := 1, id := "policy-fallback", waf := ⟨false, none⟩,
    precise := [], base := [] }

/-- Policy resolution, mirroring `PolicyManager::get_policy_for_host`:
matched id, else the default policy, else the synthesized fallback. -/
def getPolicyForHost (st : PolicyState) (host : String) : CompiledPolicy :=
  let pid := st.matcher.matchPolicyId host
  match lookupA st.policies pid with
  | some p => p
  | none =>
    match lookupA st.policies st.matcher.default_policy with
    | some p => p
    | none => fallbackPolicy

/-- Validation step of `PolicyManager::load_from_files`.  The file
reading, YAML parsing and per-file compilation are external I/O; the
embedding takes the already-built matcher and compiled policy map and
keeps the success criterion of the source: the `bail!` when the default
policy id is absent from the policies map.  A fresh CC table mirrors
`CcLimiter::new`. -/
def loadFromFiles (matcher : DomainMatcher)
    (policies : List (String × CompiledPolicy)) : Option PolicyState :=
  if (lookupA policies matcher.default_policy).isSome then
    some { matcher := matcher, policies := policies, cc := fun _ => none }
  else none

/-- Claim C3.  `load_from_files` fails unless the default policy id is
in the policies map; and after any successful load, for every host the
resolved policy is a member of the policies map (the synthesized
fallback branch is unreachable), the default policy being returned
whenever the matched id is absent. -/
theorem policy_resolution_totality :
    (∀ (m : DomainMatcher) (ps : List (String × CompiledPolicy)),
      lookupA ps m.default_policy = none → loadFromFiles m ps = none) ∧
    (∀ (m : DomainMatcher) (ps : List (String × CompiledPolicy)) (st : PolicyState),
      loadFromFiles m ps = some st → ∀ host : String,
      (∃ pid p, lookupA st.policies pid = some p ∧ getPolicyForHost st host = p) ∧
      (lookupA st.policies (st.matcher.matchPolicyId host) = none →
        ∃ dp, lookupA st.policies st.matcher.default_policy = some dp ∧
          getPolicyForHost st host = dp)) := by
  constructor
  · intro m ps h
    simp [loadFromFiles, h]
  · intro m ps st hload host
    by_cases hd : (lookupA ps m.default_policy).isSome
    · have hst : st = ⟨m, ps, fun _ => none⟩ := by
        simp only [loadFromFiles, if_pos hd, Option.some_inj] at hload
        exact hload.symm
      subst hst
      obtain ⟨dp, hdp⟩ := Option.isSome_iff_exists.mp hd
      constructor
      · cases hp : lookupA ps (DomainMatcher.matchPolicyId m host) with
        | some p =>
          exact ⟨DomainMatcher.matchPolicyId m host, p, hp,
            by simp [getPolicyForHost, hp]⟩
        | none =>
          exact ⟨m.default_policy, dp, hdp, by simp [getPolicyForHost, hp, hdp]⟩
      · intro hnone
        exact ⟨dp, hdp, by simp [getPolicyForHost, hnone, hdp]⟩
    · simp [loadFromFiles, hd] at hload

/-- Witness for `policy_resolution_totality` at concrete inputs. -/
theorem policy_resolution_totality_witness :
    (loadFromFiles ⟨[], [], "PD"⟩ [] = none) ∧
    (∃ pid p,
      lookupA [("PD", (⟨1, "pd", ⟨true, none⟩, [], []⟩ : CompiledPolicy))] pid =
        some p ∧
      getPolicyForHost
        ⟨⟨[], [], "PD"⟩, [("PD", ⟨1, "pd", ⟨true, none⟩, [], []⟩)],
          fun _ => none⟩ "x.com" = p) := by
  constructor
  · exact policy_resolution_totality.1 ⟨[], [], "PD"⟩ [] rfl
  · exact (policy_resolution_totality.2 ⟨[], [], "PD"⟩
      [("PD", ⟨1, "pd", ⟨true, none⟩, [], []⟩)]
      ⟨⟨[], [], "PD"⟩, [("PD", ⟨1, "pd", ⟨true, none⟩, [], []⟩)], fun _ => none⟩
      rfl "x.com").1

/-! ### Enforcer (src/policy/enforcer.rs) -/

/-- Enforcement result, mirroring `EnforceResult`. -/
structure EnforceResult where
  decision : Decision
  policy_id : String
  req_body_rules : List Nat
  resp_body_rules : List Nat

/-- Request-header enforcement, mirroring
`PolicyEnforcer::enforce_request_headers`: resolve the policy for the
host, run the protection engine on `precise` then `base` rules with the
shared limiter table threaded through, stop at the first terminal
decision with empty body-rule lists, honor the per-policy WAF switch,
and only then evaluate the WAF header engine. -/
def enforceRequestHeaders (rx : String → String → Bool) (st : PolicyState)
    (wafRules : List WafCompiledRule) (ctx : WafContext) (hv : HeaderView)
    (now : Nat) : EnforceResult × CcTable :=
  let host := ctx.host.getD ""
  let policy := getPolicyForHost st host
  let d1 := evalRules rx policy.precise ctx hv st.cc now
  if d1.1.isTerminal then
    (⟨d1.1, policy.id, [], []⟩, d1.2)
  else
    let d2 := evalRules rx policy.base ctx hv d1.2 now
    if d2.1.isTerminal then
      (⟨d2.1, policy.id, [], []⟩, d2.2)
    else if policy.waf.enabled = false then
      (⟨.Allow, policy.id, [], []⟩, d2.2)
    else
      let w := wafEvalRequestHeaders wafRules ctx
      (⟨w.1, policy.id, w.2.1, w.2.2⟩, d2.2)

/-- Claim C2.  A terminal precise-rule decision is returned with empty
body-rule lists, base rules and the WAF engine never evaluated (the
limiter table stops at the precise pass and the result is independent of
the WAF ruleset); likewise a terminal base-rule decision preempts the
WAF engine; and with `waf.enabled = false` the result is `Allow` with
empty lists, again independent of the WAF ruleset. -/
theorem enforcer_terminal_precedence :
    (∀ (rx : String → String → Bool) (st : PolicyState)
        (wr1 wr2 : List WafCompiledRule) (ctx : WafContext) (hv : HeaderView)
        (now : Nat) (d1 : Decision) (t1 : CcTable),
      evalRules rx (getPolicyForHost st (ctx.host.getD "")).precise ctx hv
        st.cc now = (d1, t1) →
      d1.isTerminal = true →
      enforceRequestHeaders rx st wr1 ctx hv now =
        (⟨d1, (getPolicyForHost st (ctx.host.getD "")).id, [], []⟩, t1) ∧
      enforceRequestHeaders rx st wr1 ctx hv now =
        enforceRequestHeaders rx st wr2 ctx hv now) ∧
    (∀ (rx : String → String → Bool) (st : PolicyState)
        (wr1 wr2 : List WafCompiledRule) (ctx : WafContext) (hv : HeaderView)
        (now : Nat) (d1 : Decision) (t1 : CcTable) (d2 : Decision) (t2 : CcTable),
      evalRules rx (getPolicyForHost st (ctx.host.getD "")).precise ctx hv
        st.cc now = (d1, t1) →
      d1.isTerminal = false →
      evalRules rx (getPolicyForHost st (ctx.host.getD "")).base ctx hv
        t1 now = (d2, t2) →
      d2.isTerminal = true →
      enforceRequestHeaders rx st wr1 ctx hv now =
        (⟨d2, (getPolicyForHost st (ctx.host.getD "")).id, [], []⟩, t2) ∧
      enforceRequestHeaders rx st wr1 ctx hv now =
        enforceRequestHeaders rx st wr2 ctx hv now) ∧
    (∀ (rx : String → String → Bool) (st : PolicyState)
        (wr1 wr2 : List WafCompiledRule) (ctx : WafContext) (hv : HeaderView)
        (now : Nat) (d1 : Decision) (t1 : CcTable) (d2 : Decision) (t2 : CcTable),
      evalRules rx (getPolicyForHost st (ctx.host.getD "")).precise ctx hv
        st.cc now = (d1, t1) →
      d1.isTerminal = false →
      evalRules rx (getPolicyForHost st (ctx.host.getD "")).base ctx hv
        t1 now = (d2, t2) →
      d2.isTerminal = false →
      (getPolicyForHost st (ctx.host.getD "")).waf.enabled = false →
      enforceRequestHeaders rx st wr1 ctx hv now =
        (⟨.Allow, (getPolicyForHost st (ctx.host.getD "")).id, [], []⟩, t2) ∧
      enforceRequestHeaders rx st wr1 ctx hv now =
        enforceRequestHeaders rx st wr2 ctx hv now) := by
  refine ⟨?_, ?_, ?_⟩
  · intro rx st wr1 wr2 ctx hv now d1 t1 h1 ht1
    have : ∀ wr, enforceRequestHeaders rx st wr ctx hv now =
        (⟨d1, (getPolicyForHost st (ctx.host.getD "")).id, [], []⟩, t1) := by
      intro wr
      simp [enforceRequestHeaders, h1, ht1]
    exact ⟨this wr1, (this wr1).trans (this wr2).symm⟩
  · intro rx st wr1 wr2 ctx hv now d1 t1 d2 t2 h1 ht1 h2 ht2
    have : ∀ wr, enforceRequestHeaders rx st wr ctx hv now =
        (⟨d2, (getPolicyForHost st (ctx.host.getD "")).id, [], []⟩, t2) := by
      intro wr
      simp [enforceRequestHeaders, h1, ht1, h2, ht2]
    exact ⟨this wr1, (this wr1).trans (this wr2).symm⟩
  · intro rx st wr1 wr2 ctx hv now d1 t1 d2 t2 h1 ht1 h2 ht2 hwaf
    have : ∀ wr, enforceRequestHeaders rx st wr ctx hv now =
        (⟨.Allow, (getPolicyForHost st (ctx.host.getD "")).id, [], []⟩, t2) := by
      intro wr
      simp [enforceRequestHeaders, h1, ht1, h2, ht2, hwaf]
    exact ⟨this wr1, (this wr1).trans (this wr2).symm⟩

/-- Witness for `enforcer_terminal_precedence` at concrete inputs: a
policy whose single precise rule blocks everything. -/
theorem enforcer_terminal_precedence_witness :
    enforceRequestHeaders (fun _ _ => false)
        ⟨⟨[], [], "PD"⟩, [("PD", ⟨1, "P-block", ⟨false, none⟩,
          [⟨"pr", .Any, .Block 403 "deny"⟩], []⟩)], fun _ => none⟩
        [] ⟨"GET", "/", none, none, none⟩ (fun _ => none) 0 =
      (⟨.Block 403 "deny" "pr",
        (getPolicyForHost ⟨⟨[], [], "PD"⟩, [("PD", ⟨1, "P-block", ⟨false, none⟩,
          [⟨"pr", .Any, .Block 403 "deny"⟩], []⟩)], fun _ => none⟩
          ((⟨"GET", "/", none, none, none⟩ : WafContext).host.getD "")).id,
        [], []⟩, fun _ => none) ∧
    enforceRequestHeaders (fun _ _ => false)
        ⟨⟨[], [], "PD"⟩, [("PD", ⟨1, "P-block", ⟨false, none⟩,
          [⟨"pr", .Any, .Block 403 "deny"⟩], []⟩)], fun _ => none⟩
        [] ⟨"GET", "/", none, none, none⟩ (fun _ => none) 0 =
      enforceRequestHeaders (fun _ _ => false)
        ⟨⟨[], [], "PD"⟩, [("PD", ⟨1, "P-block", ⟨false, none⟩,
          [⟨"pr", .Any, .Block 403 "deny"⟩], []⟩)], fun _ => none⟩
        [⟨"w", .Block, none, none, none, none, []⟩]
        ⟨"GET", "/", none, none, none⟩ (fun _ => none) 0 := by
  have h1 : evalRules (fun _ _ => false)
      (getPolicyForHost ⟨⟨[], [], "PD"⟩, [("PD", ⟨1, "P-block", ⟨false, none⟩,
        [⟨"pr", .Any, .Block 403 "deny"⟩], []⟩)], fun _ => none⟩
        ((⟨"GET", "/", none, none, none⟩ : WafContext).host.getD "")).precise
      ⟨"GET", "/", none, none, none⟩ (fun _ => none) (fun _ => none) 0 =
      (.Block 403 "deny" "pr", fun _ => none) := by
    have hpre : (getPolicyForHost ⟨⟨[], [], "PD"⟩, [("PD", ⟨1, "P-block",
        ⟨false, none⟩, [⟨"pr", .Any, .Block 403 "deny"⟩], []⟩)], fun _ => none⟩
        ((⟨"GET", "/", none, none, none⟩ : WafContext).host.getD "")).precise =
        [⟨"pr", CompiledMatchExpr.Any, CompiledAction.Block 403 "deny"⟩] := rfl
    rw [hpre]
    simp [evalRules, evalMatch, execAction, Decision.isTerminal]
  exact ⟨(enforcer_terminal_precedence.1 (fun _ _ => false) _ []
      [⟨"w", .Block, none, none, none, none, []⟩] _ (fun _ => none) 0
      (.Block 403 "deny" "pr") (fun _ => none) h1 rfl).1,
    (enforcer_terminal_precedence.1 (fun _ _ => false) _ []
      [⟨"w", .Block, none, none, none, none, []⟩] _ (fun _ => none) 0
      (.Block 403 "deny" "pr") (fun _ => none) h1 rfl).2⟩

/-! ### Host normalization (src/waf/context.rs, `normalize_host`) -/

/-- Rust `trim_end_matches('.')`: remove every trailing dot. -/
def stripTrailingDots (l : List Char) : List Char :=
  (l.reverse.dropWhile (fun c => c = '.')).reverse

/-- The cleaned host of `normalize_host`:
`host.trim().trim_end_matches('.').to_ascii_lowercase()`. -/
def cleanHost (l : List Char) : List Char :=
  (stripTrailingDots (trimL l)).map asciiLowerChar

/-- Rust `h.rfind(':')` as a character index. -/
def lastColonIdx (l : List Char) : Option Nat :=
  match l.reverse.findIdx? (fun c => c = ':') with
  | some j => some (l.length - 1 - j)
  | none => none

/-- Host normalization, mirroring `normalize_host` in waf/context.rs:
clean, keep bracketed IPv6 hosts intact, and strip a trailing
`:<digits>` port from non-bracketed hosts. -/
def normHostL (l : List Char) : List Char :=
  let h := cleanHost l
  if h.head? = some '[' then h
  else
    match lastColonIdx h with
    | some i =>
      if 1 < (h.drop i).length ∧ (h.drop (i + 1)).all Char.isDigit = true then
        h.take i
      else h
    | none => h

/-- String-level wrapper of `normalize_host`. -/
def normalizeHost (s : String) : String := ⟨normHostL s.data⟩

theorem char_eq_of_toNat_eq (a b : Char) (h : a.toNat = b.toNat) : a = b := by
  apply Char.eq_of_val_eq
  apply UInt32.toNat.inj
  exact h

theorem toNat_ofNat_small (n : Nat) (h1 : 97 ≤ n) (h2 : n ≤ 122) :
    (Char.ofNat n).toNat = n := by
  have hv : n.isValidChar := Or.inl (by omega)
  simp [Char.ofNat, Char.toNat, hv, Char.ofNatAux, UInt32.toNat,
    BitVec.toNat_ofNatLt]

theorem toNat_asciiLowerChar (c : Char) :
    (asciiLowerChar c).toNat =
      if 65 ≤ c.toNat ∧ c.toNat ≤ 90 then c.toNat + 32 else c.toNat := by
  unfold asciiLowerChar
  by_cases h : 65 ≤ c.toNat ∧ c.toNat ≤ 90
  · rw [if_pos h, if_pos h]
    exact toNat_ofNat_small (c.toNat + 32) (by omega) (by omega)
  · rw [if_neg h, if_neg h]

theorem asciiLowerChar_not_upper (c : Char) :
    ¬ (65 ≤ (asciiLowerChar c).toNat ∧ (asciiLowerChar c).toNat ≤ 90) := by
  have := toNat_asciiLowerChar c
  by_cases h : 65 ≤ c.toNat ∧ c.toNat ≤ 90 <;> simp [h] at this <;> omega

theorem asciiLowerChar_eq_dot (a : Char) (h : asciiLowerChar a = '.') : a = '.' := by
  have ht := congrArg Char.toNat h
  rw [toNat_asciiLowerChar] at ht
  by_cases hu : 65 ≤ a.toNat ∧ a.toNat ≤ 90
  · rw [if_pos hu] at ht
    have : ('.' : Char).toNat = 46 := by decide
    omega
  · rw [if_neg hu] at ht
    exact char_eq_of_toNat_eq a '.' ht

theorem head?_dropWhile_false (p : Char → Bool) :
    ∀ (l : List Char) (a : Char), (l.dropWhile p).head? = some a → p a = false := by
  intro l
  induction l with
  | nil => intro a h; simp [List.dropWhile] at h
  | cons x t ih =>
    intro a h
    by_cases hx : p x
    · rw [List.dropWhile_cons_of_pos hx] at h
      exact ih a h
    · rw [List.dropWhile_cons_of_neg hx] at h
      simp only [List.head?_cons, Option.some_inj] at h
      subst h
      simpa using hx

/-- Claim C8.  `normalize_host` lowercases, strips all trailing dots,
keeps bracketed hosts intact, strips a digit-only port from
non-bracketed hosts, and maps `"Host.Example.COM:8080"` to
`"host.example.com"`. -/
theorem normalize_host_properties :
    (normalizeHost "Host.Example.COM:8080" = "host.example.com") ∧
    (∀ s : String, (cleanHost s.data).head? = some '[' →
      normalizeHost s = ⟨cleanHost s.data⟩) ∧
    (∀ (s : String) (i : Nat), ¬ (cleanHost s.data).head? = some '[' →
      lastColonIdx (cleanHost s.data) = some i →
      1 < ((cleanHost s.data).drop i).length →
      ((cleanHost s.data).drop (i + 1)).all Char.isDigit = true →
      normalizeHost s = ⟨(cleanHost s.data).take i⟩) ∧
    (∀ (s : String) (c : Char), c ∈ (normalizeHost s).data →
      ¬ (65 ≤ c.toNat ∧ c.toNat ≤ 90)) ∧
    (∀ s : String, ¬ (cleanHost s.data).getLast? = some '.') := by
  refine ⟨by decide, ?_, ?_, ?_, ?_⟩
  · intro s hbr
    simp [normalizeHost, normHostL, hbr]
  · intro s i hbr hcolon hlen hdig
    have hlen' : 1 < (cleanHost s.data).length - i := by
      simpa using hlen
    simp [normalizeHost, normHostL, hbr, hcolon, hlen, hdig, hlen']
  · intro s c hc
    have key : ∀ x, x ∈ cleanHost s.data → ¬ (65 ≤ x.toNat ∧ x.toNat ≤ 90) := by
      intro x hx
      obtain ⟨a, _, rfl⟩ := List.mem_map.mp (by simpa [cleanHost] using hx)
      exact asciiLowerChar_not_upper a
    simp only [normalizeHost, normHostL] at hc
    split at hc
    · exact key c hc
    · split at hc
      · split at hc
        · exact key c (List.mem_of_mem_take hc)
        · exact key c hc
      · exact key c hc
  · intro s hlast
    have h1 : (cleanHost s.data).getLast? =
        (((trimL s.data).reverse.dropWhile (fun c => c = '.')).map
          asciiLowerChar).head? := by
      have e : cleanHost s.data =
          (((trimL s.data).reverse.dropWhile (fun c => c = '.')).map
            asciiLowerChar).reverse := by
        unfold cleanHost stripTrailingDots
        exact List.map_reverse _ _
      rw [e, List.getLast?_reverse]
    rw [h1, List.head?_map] at hlast
    cases hh : ((trimL s.data).reverse.dropWhile (fun c => c = '.')).head? with
    | none => rw [hh] at hlast; simp at hlast
    | some a =>
      rw [hh] at hlast
      have hla : asciiLowerChar a = '.' := by simpa using hlast
      have ha : a = '.' := asciiLowerChar_eq_dot a hla
      have := head?_dropWhile_false (fun c => c = '.') _ a hh
      rw [ha] at this
      simp at this

/-- Witness for `normalize_host_properties` at concrete inputs. -/
theorem normalize_host_properties_witness :
    (normalizeHost "[2001:db8::1]:443" = ⟨cleanHost "[2001:db8::1]:443".data⟩) ∧
    (normalizeHost "example.org:80" = ⟨(cleanHost "example.org:80".data).take 11⟩) ∧
    (¬ (cleanHost "example.org.".data).getLast? = some '.') := by
  refine ⟨?_, ?_, ?_⟩
  · exact normalize_host_properties.2.1 "[2001:db8::1]:443" (by decide)
  · exact normalize_host_properties.2.2.1 "example.org:80" 11 (by decide)
      (by decide) (by decide) (by decide)
  · exact normalize_host_properties.2.2.2.2 "example.org."

/-! ### Streaming body scanner (src/server/proxy.rs, request_body_filter)

Per-request scanner state for one deferred rule: the retained tail and
the blocked flag.  Each chunk forms `window = tail ++ chunk`; a rule
match blocks the request; otherwise, when `keep > 0`, the tail becomes
the last `keep` bytes of the window (all of it when shorter). -/

/-- Scanner state carried in `ProxyCtx` (`req_tail` / `blocked`). -/
structure ScanState where
  tail : List Nat
  blocked : Bool
deriving Repr, DecidableEq

/-- One chunk of `request_body_filter` for a single deferred rule with
matcher `ac` and retained length `keep`. -/
def scanStep (ac : AcMatcher) (keep : Nat) (st : ScanState) (chunk : List Nat) :
    ScanState :=
  if st.blocked then st
  else
    let window := st.tail ++ chunk
    if ac.isMatch window then { st with blocked := true }
    else if 0 < keep then
      { st with tail :=
        if keep < window.length then window.drop (window.length - keep) else window }
    else st

/-- The scanner over a whole chunk sequence. -/
def scanRun (ac : AcMatcher) (keep : Nat) (st : ScanState)
    (chunks : List (List Nat)) : ScanState :=
  chunks.foldl (scanStep ac keep) st

/-- An `AcMatcher` over raw byte patterns, with the recorded maximum
pattern length as in `AcMatcher::new`. -/
def acOfPatterns (pats : List (List Nat)) : AcMatcher :=
  { patterns := pats, max_pat_len := (pats.map List.length).foldr max 0 }

theorem acOfPatterns_new (pats : List String) :
    AcMatcher.new pats = acOfPatterns (pats.map strBytes) := by
  simp [AcMatcher.new, acOfPatterns, List.map_map]
  rfl

theorem scanRun_blocked (ac : AcMatcher) (keep : Nat) :
    ∀ (chunks : List (List Nat)) (t : List Nat),
      scanRun ac keep ⟨t, true⟩ chunks = ⟨t, true⟩ := by
  intro chunks
  induction chunks with
  | nil => intro t; rfl
  | cons c cs ih =>
    intro t
    show scanRun ac keep (scanStep ac keep ⟨t, true⟩ c) cs = ⟨t, true⟩
    have : scanStep ac keep ⟨t, true⟩ c = ⟨t, true⟩ := by simp [scanStep]
    rw [this, ih]

theorem le_foldr_max (pats : List (List Nat)) (p : List Nat) (hp : p ∈ pats) :
    p.length ≤ (pats.map List.length).foldr max 0 := by
  induction pats with
  | nil => simp at hp
  | cons a t ih =>
    rcases List.mem_cons.mp hp with rfl | hp'
    · simp [le_max_left]
    · simp only [List.map_cons, List.foldr_cons]
      exact le_max_of_le_right (ih hp')

theorem suffix_append_same (t a c : List Nat) (h : t <:+ a) : t ++ c <:+ a ++ c := by
  obtain ⟨u, hu⟩ := h
  exact ⟨u, by rw [← hu, List.append_assoc]⟩

theorem suffix_of_suffix_le (l₁ l₂ l : List Nat) (h1 : l₁ <:+ l) (h2 : l₂ <:+ l)
    (hl : l₁.length ≤ l₂.length) : l₁ <:+ l₂ := by
  have e1 : l₁ = l.drop (l.length - l₁.length) := List.suffix_iff_eq_drop.mp h1
  have e2 : l₂ = l.drop (l.length - l₂.length) := List.suffix_iff_eq_drop.mp h2
  have hn1 : l₁.length ≤ l.length := h1.length_le
  have hn2 : l₂.length ≤ l.length := h2.length_le
  set k := l₂.length - l₁.length with hk
  have key : l₂.drop k = l₁ := by
    rw [e2, List.drop_drop]
    rw [show l.length - l₂.length + k = l.length - l₁.length from by omega]
    exact e1.symm
  exact key ▸ List.drop_suffix k l₂

theorem infix_left_of_append_eq (W J s P t : List Nat)
    (h : s ++ P ++ t = W ++ J) (hl : s.length + P.length ≤ W.length) :
    P <:+: W := by
  have hpre1 : s ++ P <+: W ++ J := ⟨t, by simpa [List.append_assoc] using h⟩
  have hpre2 : s ++ P <+: W :=
    List.prefix_of_prefix_length_le hpre1 (List.prefix_append W J)
      (by simpa using hl)
  have hmid : P <:+: s ++ P := ⟨s, [], by simp⟩
  exact List.IsInfix.trans hmid (List.IsPrefix.isInfix hpre2)

theorem scan_complete_aux (ac : AcMatcher) (keep : Nat) (P : List Nat)
    (hP : P ∈ ac.patterns) (hkeep : P.length ≤ keep + 1) :
    ∀ (chunks : List (List Nat)) (t : List Nat), chunks ≠ [] →
      lowB P <:+: lowB (t ++ chunks.flatten) →
      (scanRun ac keep ⟨t, false⟩ chunks).blocked = true := by
  intro chunks
  induction chunks with
  | nil => intro t hne _; exact absurd rfl hne
  | cons c cs ih =>
    intro t _ hocc
    show (scanRun ac keep (scanStep ac keep ⟨t, false⟩ c) cs).blocked = true
    by_cases hm : ac.isMatch (t ++ c) = true
    · have hstep : scanStep ac keep ⟨t, false⟩ c = ⟨t, true⟩ := by
        simp [scanStep, hm]
      rw [hstep, scanRun_blocked]
    · have hnin : ¬ lowB P <:+: lowB (t ++ c) := by
        intro hcon
        apply hm
        unfold AcMatcher.isMatch
        rw [List.any_eq_true]
        exact ⟨P, hP, by simpa using hcon⟩
      have hocc' : lowB P <:+: lowB (t ++ c) ++ lowB cs.flatten := by
        have hsplit : lowB (t ++ (c :: cs).flatten) =
            lowB (t ++ c) ++ lowB cs.flatten := by
          simp [lowB, List.flatten_cons, List.map_append, List.append_assoc]
        rwa [hsplit] at hocc
      obtain ⟨s, t', hst⟩ := hocc'
      by_cases hcross : s.length + (lowB P).length ≤ (lowB (t ++ c)).length
      · exact absurd (infix_left_of_append_eq _ _ _ _ _ hst hcross) hnin
      · have hlen : s.length + ((lowB P).length + t'.length) =
            (lowB (t ++ c)).length + (lowB cs.flatten).length := by
          have := congrArg List.length hst
          simpa [List.length_append] using this
        have htJ : t'.length < (lowB cs.flatten).length := by omega
        have hcs : cs ≠ [] := by
          intro hnil
          subst hnil
          simp [lowB] at htJ
        have hPlen : (lowB P).length = P.length := by simp [lowB]
        rcases Nat.eq_zero_or_pos keep with hk0 | hkpos
        · subst hk0
          have hstep : scanStep ac 0 ⟨t, false⟩ c = ⟨t, false⟩ := by
            simp [scanStep, hm]
          rw [hstep]
          apply ih t hcs
          have hsW : (lowB (t ++ c)).length ≤ s.length := by omega
          have hpre2 : s <+: lowB (t ++ c) ++ lowB cs.flatten :=
            ⟨lowB P ++ t', by simpa [List.append_assoc] using hst⟩
          have hWs : lowB (t ++ c) <+: s :=
            List.prefix_of_prefix_length_le (List.prefix_append _ _) hpre2 hsW
          obtain ⟨s2, hs2⟩ := hWs
          have hst' : lowB (t ++ c) ++ (s2 ++ lowB P ++ t') =
              lowB (t ++ c) ++ lowB cs.flatten := by
            rw [← hs2] at hst
            simpa [List.append_assoc] using hst
          have hJeq : s2 ++ lowB P ++ t' = lowB cs.flatten :=
            List.append_cancel_left hst'
          have hPJ : lowB P <:+: lowB cs.flatten := ⟨s2, t', hJeq⟩
          have hJsuf : lowB cs.flatten <:+: lowB t ++ lowB cs.flatten :=
            ⟨lowB t, [], by simp⟩
          have hfin := hPJ.trans hJsuf
          have hrw : lowB (t ++ cs.flatten) = lowB t ++ lowB cs.flatten := by
            simp [lowB, List.map_append]
          rw [hrw]
          exact hfin
        · by_cases hbig : keep < (t ++ c).length
          · have hbig' : keep < t.length + c.length := by simpa using hbig
            have hstep : scanStep ac keep ⟨t, false⟩ c =
                ⟨(t ++ c).drop ((t ++ c).length - keep), false⟩ := by
              simp [scanStep, hm, hkpos, hbig, hbig']
            rw [hstep]
            apply ih _ hcs
            have hA : lowB P ++ t' <:+ lowB (t ++ c) ++ lowB cs.flatten :=
              ⟨s, by simpa [List.append_assoc] using hst⟩
            have hB : (lowB (t ++ c)).drop ((lowB (t ++ c)).length - keep) ++
                lowB cs.flatten <:+ lowB (t ++ c) ++ lowB cs.flatten :=
              suffix_append_same _ _ _ (List.drop_suffix _ _)
            have hWlen : (lowB (t ++ c)).length = (t ++ c).length := by
              simp [lowB]
            have hlenAB : (lowB P ++ t').length ≤
                ((lowB (t ++ c)).drop ((lowB (t ++ c)).length - keep) ++
                  lowB cs.flatten).length := by
              simp only [List.length_append, List.length_drop]
              omega
            have hsub := suffix_of_suffix_le _ _ _ hA hB hlenAB
            have hPfx : lowB P <+: lowB P ++ t' := ⟨t', rfl⟩
            have hres := List.IsInfix.trans hPfx.isInfix hsub.isInfix
            have hrw : lowB ((t ++ c).drop ((t ++ c).length - keep) ++ cs.flatten) =
                (lowB (t ++ c)).drop ((lowB (t ++ c)).length - keep) ++
                  lowB cs.flatten := by
              simp [lowB, List.map_append, List.map_drop]
            rw [hrw]
            exact hres
          · have hbig' : ¬ keep < t.length + c.length := by simpa using hbig
            have hstep : scanStep ac keep ⟨t, false⟩ c = ⟨t ++ c, false⟩ := by
              simp [scanStep, hm, hkpos, hbig, hbig']
            rw [hstep]
            apply ih _ hcs
            have hrw : lowB ((t ++ c) ++ cs.flatten) =
                lowB (t ++ c) ++ lowB cs.flatten := by
              simp [lowB, List.map_append]
            rw [hrw]
            exact ⟨s, t', hst⟩

theorem scan_sound_aux (ac : AcMatcher) (keep : Nat) :
    ∀ (chunks : List (List Nat)) (t acc : List Nat),
      t <:+ acc → (keep = 0 → t = []) →
      (scanRun ac keep ⟨t, false⟩ chunks).blocked = true →
      ∃ p ∈ ac.patterns, lowB p <:+: lowB (acc ++ chunks.flatten) := by
  intro chunks
  induction chunks with
  | nil => intro t acc _ _ hb; simp [scanRun, ScanState.blocked] at hb
  | cons c cs ih =>
    intro t acc hsuf hk0 hb
    rw [show scanRun ac keep ⟨t, false⟩ (c :: cs) =
      scanRun ac keep (scanStep ac keep ⟨t, false⟩ c) cs from rfl] at hb
    by_cases hm : ac.isMatch (t ++ c) = true
    · obtain ⟨p, hp, hdec⟩ := List.any_eq_true.mp hm
      refine ⟨p, hp, ?_⟩
      have hpw : lowB p <:+: lowB (t ++ c) := of_decide_eq_true hdec
      have hwin : lowB (t ++ c) <:+ lowB (acc ++ c) := by
        have : t ++ c <:+ acc ++ c := suffix_append_same _ _ _ hsuf
        simpa [lowB] using this.map asciiLowerByte
      have hmono : lowB (acc ++ c) <+: lowB (acc ++ (c :: cs).flatten) := by
        have : lowB (acc ++ (c :: cs).flatten) =
            lowB (acc ++ c) ++ lowB cs.flatten := by
          simp [lowB, List.flatten_cons, List.map_append, List.append_assoc]
        rw [this]
        exact List.prefix_append _ _
      exact (hpw.trans hwin.isInfix).trans hmono.isInfix
    · have hstruct : ∃ t2, scanStep ac keep ⟨t, false⟩ c = ⟨t2, false⟩ ∧
          t2 <:+ acc ++ c ∧ (keep = 0 → t2 = []) := by
        rcases Nat.eq_zero_or_pos keep with hz | hpos
        · refine ⟨t, by simp [scanStep, hm, hz], ?_, fun _ => hk0 hz⟩
          rw [hk0 hz]
          exact List.nil_suffix
        · by_cases hbig : keep < (t ++ c).length
          · have hbig' : keep < t.length + c.length := by simpa using hbig
            refine ⟨(t ++ c).drop ((t ++ c).length - keep),
              by simp [scanStep, hm, hpos, hbig, hbig'], ?_,
              by intro h; exact absurd h (by omega)⟩
            exact List.IsSuffix.trans (List.drop_suffix _ _)
              (suffix_append_same _ _ _ hsuf)
          · have hbig' : ¬ keep < t.length + c.length := by simpa using hbig
            refine ⟨t ++ c, by simp [scanStep, hm, hpos, hbig, hbig'], ?_,
              by intro h; exact absurd h (by omega)⟩
            exact suffix_append_same _ _ _ hsuf
      obtain ⟨t2, hstep, hsuf2, hk02⟩ := hstruct
      rw [hstep] at hb
      obtain ⟨p, hp, hinf⟩ := ih t2 (acc ++ c) hsuf2 hk02 hb
      refine ⟨p, hp, ?_⟩
      have : lowB (acc ++ c ++ cs.flatten) = lowB (acc ++ (c :: cs).flatten) := by
        simp [lowB, List.flatten_cons, List.map_append, List.append_assoc]
      rwa [this] at hinf

/-- Counterexample for claim C5 as stated: with the rule patterns
`["A", "B"]` and the single chunk `"B"`, the chunk-size proviso holds
for `P = "A"`, the scanner reports a match (pattern `"B"` matches), yet
`P` does not appear in the concatenation — the biconditional fails. -/
theorem streaming_scanner_iff_counterexample :
    (scanRun (acOfPatterns [[65], [66]])
        ((acOfPatterns [[65], [66]]).max_pat_len - 1)
        ⟨[], false⟩ [[66]]).blocked = true ∧
    ¬ lowB [65] <:+: lowB ([[66]] : List (List Nat)).flatten ∧
    ([65] : List Nat) ∈ ([[65], [66]] : List (List Nat)) ∧
    (∀ i, i < ([[66]] : List (List Nat)).length →
      ([65] : List Nat).length ≤ (scanRun (acOfPatterns [[65], [66]])
          ((acOfPatterns [[65], [66]]).max_pat_len - 1) ⟨[], false⟩
          (([[66]] : List (List Nat)).take i)).tail.length +
        ((([[66]] : List (List Nat)).get? i).getD []).length) := by
  refine ⟨by decide, by decide, by decide, ?_⟩
  intro i hi
  have hi0 : i = 0 := by
    simp at hi
    omega
  subst hi0
  decide

/-- Claim C5, amended.  For a deferred rule with body patterns `pats`
and retained-tail length `body_keep_len = max_pattern_length - 1`, and
any pattern `P` of the rule: if `P` occurs (ASCII case-insensitively) in
the concatenation of the chunks, the scanner reports a match — in the
degenerate case of an empty `P` at least one chunk must be processed —
and conversely a reported match implies some pattern of the rule occurs
in the concatenation.  The per-chunk size proviso of the original claim
is kept as a hypothesis. -/
theorem streaming_scanner_soundness_completeness :
    ∀ (pats : List (List Nat)) (P : List Nat) (chunks : List (List Nat)),
      P ∈ pats →
      (∀ i, i < chunks.length →
        P.length ≤ (scanRun (acOfPatterns pats)
            ((acOfPatterns pats).max_pat_len - 1) ⟨[], false⟩
            (chunks.take i)).tail.length + ((chunks.get? i).getD []).length) →
      (P = [] → chunks ≠ []) →
      ((lowB P <:+: lowB chunks.flatten →
        (scanRun (acOfPatterns pats) ((acOfPatterns pats).max_pat_len - 1)
          ⟨[], false⟩ chunks).blocked = true) ∧
       ((scanRun (acOfPatterns pats) ((acOfPatterns pats).max_pat_len - 1)
          ⟨[], false⟩ chunks).blocked = true →
        ∃ p ∈ pats, lowB p <:+: lowB chunks.flatten)) := by
  intro pats P chunks hP _hproviso hdeg
  constructor
  · intro hocc
    have hkeep : P.length ≤ ((acOfPatterns pats).max_pat_len - 1) + 1 := by
      have h1 : P.length ≤ (pats.map List.length).foldr max 0 :=
        le_foldr_max pats P hP
      simp only [acOfPatterns]
      omega
    have hne : chunks ≠ [] := by
      by_cases hPnil : P = []
      · exact hdeg hPnil
      · intro hcnil
        subst hcnil
        apply hPnil
        have h0 := hocc
        simp [lowB] at h0
        exact h0
    exact scan_complete_aux (acOfPatterns pats)
      ((acOfPatterns pats).max_pat_len - 1) P hP hkeep chunks [] hne
      (by simpa using hocc)
  · intro hb
    have h := scan_sound_aux (acOfPatterns pats)
      ((acOfPatterns pats).max_pat_len - 1) chunks [] []
      List.nil_suffix (fun _ => rfl) hb
    simpa using h

/-- Witness for `streaming_scanner_soundness_completeness` at concrete
inputs: pattern `"d"` (0x64), chunk `"D"` (0x44), matched
case-insensitively. -/
theorem streaming_scanner_witness :
    (scanRun (acOfPatterns [[100]]) ((acOfPatterns [[100]]).max_pat_len - 1)
      ⟨[], false⟩ [[68]]).blocked = true ∧
    (∃ p ∈ ([[100]] : List (List Nat)),
      lowB p <:+: lowB ([[68]] : List (List Nat)).flatten) := by
  have h := streaming_scanner_soundness_completeness [[100]] [100] [[68]]
    (by decide)
    (by
      intro i hi
      have hi0 : i = 0 := by
        simp at hi
        omega
      subst hi0
      decide)
    (by intro h100; cases h100)
  exact ⟨h.1 (by decide), h.2 (h.1 (by decide))⟩

end PingoraWaf
